import Mathlib

/-!
Verification of the runtime support library of a Python-subset ahead-of-time
compiler: the object model, the allocation entry point `alloc_obj`, and the
precise stop-the-world mark-and-sweep collector `perform_mark_and_sweep_gc`.

The embedding is shallow.  Machine words are `Nat` (with explicit `% 2 ^ 64`
or `% 2 ^ 32` where unsigned overflow matters), signed 32-bit quantities are
`Int` restricted through explicit two's-complement wraps, and raw memory is
modelled by total functions:

* `byte : Int → Nat` — byte-addressed memory holding the compiler-emitted
  code (per-call-site reference maps) and the globals bitmap; every read of a
  `u8` in the source is modelled as `byte a % 256`.
* `stack : Int → Nat` — word-addressed memory holding the mutator stack
  frames and the globals region (`*const u64` pointers in the source are
  word indices here; the value stored in a slot is the 64-bit word).
* the heap is a map `Heap := Nat → ObjMem` from object addresses to the
  object's header and payload.  `ObjMem.slotVal i` is the 64-bit word at
  byte offset `24 + 8*i` from the object: for an ordinary (`Other`) object
  that is attribute slot `i`; for an array object `slotVal 0` is the `len`
  header field (byte offset 24) and `slotVal (1 + i)` is element `i`
  (byte offset `32 + 8*i`).  Dereferencing an address outside the allocated
  domain is undefined behaviour in the source; the model gives such an
  address no outgoing references.

Prototypes are immutable compiler-emitted data; they are modelled by a total
table `π : Nat → Prototype` from prototype addresses to their contents, and
`Prototype.reference_bitmap i` is byte `i` of the prototype's packed
reference bitmap.
-/

namespace TypedPyRt

/-- `Type` discriminator from `object.rs` (`Other = 0, Int = 1, Bool = 2,
Str = 3, ValueList = -1, ObjList = -2`). -/
inductive Ty
  | Other
  | Int
  | Bool
  | Str
  | ValueList
  | ObjList
deriving DecidableEq

/-- Prototype header from `object.rs`: `size` is a signed 32-bit byte size
(`≥ 0` ordinary attribute-area size, `< 0` negated per-element size of an
array), `type_tag` the discriminator, and `reference_bitmap` the packed
bitmap (modelled as its byte sequence). -/
structure Prototype where
  size : Int
  type_tag : Ty
  reference_bitmap : Nat → Nat

/-- Object header and payload at one heap address: `prototype` pointer
(word at byte offset 0), `gc_is_marked` byte (offset 8), `gc_next` pointer
(offset 16, `0` = null/None), and the payload words at offsets `24 + 8*i`. -/
structure ObjMem where
  protoAddr : Nat
  mark : Nat
  nextAddr : Nat
  slotVal : Nat → Nat

/-- The heap: object contents at every address. -/
def Heap := Nat → ObjMem

/-- `InitParam` from `object.rs`.  `global_size` is in bytes. -/
structure InitParam where
  bottom_frame : Int
  global_section : Int
  global_size : Nat
  global_map : Int
  str_prototype : Nat

/-- `divide_up` from `lib.rs`: round a byte count up to 8-byte allocation
units (`size_of::<AllocUnit>() = 8`). -/
def divide_up (value : Nat) : Nat :=
  if value = 0 then 0 else 1 + (value - 1) / 8

/-- Two's-complement wrap of an `Int` into the `i32` range, modelling what a
release-mode Rust `i32` negation produces on overflow. -/
def wrap_i32 (x : Int) : Int := (x + 2 ^ 31) % 2 ^ 32 - 2 ^ 31

/-- `as u64` on a signed value: two's-complement reinterpretation mod
`2 ^ 64` (sign extension for negative values). -/
def cast_u64 (x : Int) : Nat := (x % 2 ^ 64).toNat

/-- `calculate_size` from `lib.rs`: size of an object in 8-byte allocation
units.  `size_of::<Object>() = 24`, `size_of::<ArrayObject>() = 32`; the
array branch computes `(-size as u64 * len) as usize` with u64/usize
wrap-around semantics (`% 2 ^ 64`). -/
def calculate_size (p : Prototype) (len : Nat) : Nat :=
  if 0 ≤ p.size then
    divide_up (24 + p.size.toNat)
  else
    divide_up ((32 + cast_u64 (wrap_i32 (-p.size)) * len % 2 ^ 64) % 2 ^ 64)

/-- Outcome of a runtime trap: the lines printed to standard output and the
process exit code. -/
structure TrapOutcome where
  stdout_lines : List String
  code : Nat
deriving DecidableEq

/-- `println!` to standard output, modelled as appending one line. -/
def println (out : List String) (line : String) : List String := out ++ [line]

/-- `exit_code` from `lib.rs`: prints `Exited with error code {code}` and
terminates the process with `code`. -/
def exit_code (out : List String) (code : Nat) : TrapOutcome :=
  ⟨println out ("Exited with error code " ++ toString code), code⟩

/-- `invalid_arg` from `lib.rs`. -/
def invalid_arg : TrapOutcome := exit_code (println [] "Invalid argument") 1

/-- `div_zero` from `lib.rs` (`$div_zero`). -/
def div_zero : TrapOutcome := exit_code (println [] "Division by zero") 2

/-- `out_of_bound` from `lib.rs` (`$out_of_bound`). -/
def out_of_bound : TrapOutcome := exit_code (println [] "Index out of bounds") 3

/-- `none_op` from `lib.rs` (`$none_op`). -/
def none_op : TrapOutcome := exit_code (println [] "Operation on None") 4

/-- `as i32` applied to a `u64` value: keep the low 32 bits and interpret
them as a signed 32-bit integer. -/
def u64_as_i32 (n : Nat) : Int :=
  if n % 2 ^ 32 < 2 ^ 31 then ((n % 2 ^ 32 : Nat) : Int)
  else ((n % 2 ^ 32 : Nat) : Int) - 2 ^ 32

/-- `len` from `lib.rs` (`$len`): traps on a null pointer, traps unless the
type tag is `Str`/`ValueList`/`ObjList`, and otherwise returns the 64-bit
`len` header field (the word at byte offset 24, i.e. `slotVal 0`) cast
`as i32`. -/
def len (π : Nat → Prototype) (H : Heap) (pointer : Nat) : Except TrapOutcome Int :=
  if pointer = 0 then Except.error invalid_arg
  else
    let prototype := π ((H pointer).protoAddr)
    if prototype.type_tag = Ty.Str ∨ prototype.type_tag = Ty.ValueList ∨
        prototype.type_tag = Ty.ObjList then
      Except.ok (u64_as_i32 ((H pointer).slotVal 0))
    else Except.error invalid_arg

/-! ### C7: allocation size arithmetic -/

/-- C7: for every prototype `p` and length `len`, `calculate_size` returns
`ceil_div_8 (24 + p.size)` allocation units when `p.size ≥ 0` and
`ceil_div_8 (32 + (-p.size) * len)` when `p.size < 0` (the latter under the
physically necessary bounds that `p.size` is a proper `i32` above `-2^31`
and the byte count fits in a `u64`, so that no wrap-around occurs), where
`ceil_div_8 0 = 0` and `ceil_div_8 n = 1 + (n-1)/8` for `n > 0`. -/
theorem c7_calculate_size (p : Prototype) (len : Nat)
    (hlo : -2 ^ 31 < p.size)
    (hfit : p.size < 0 → 32 + (-p.size).toNat * len < 2 ^ 64) :
    (0 ≤ p.size → calculate_size p len = divide_up (24 + p.size.toNat)) ∧
    (p.size < 0 → calculate_size p len = divide_up (32 + (-p.size).toNat * len)) ∧
    divide_up 0 = 0 ∧ (∀ n : Nat, n ≠ 0 → divide_up n = 1 + (n - 1) / 8) := by
  refine ⟨fun hge => ?_, fun hlt => ?_, rfl, fun n hn => by simp [divide_up, hn]⟩
  · simp [calculate_size, hge]
  · have hnot : ¬ 0 ≤ p.size := not_le.mpr hlt
    have hpos : 0 < -p.size := by omega
    have hrange : -p.size < 2 ^ 31 := by omega
    have hwrap : wrap_i32 (-p.size) = -p.size := by
      unfold wrap_i32
      have h1 : (0 : Int) ≤ -p.size + 2 ^ 31 := by omega
      have h2 : -p.size + 2 ^ 31 < 2 ^ 32 := by omega
      rw [Int.emod_eq_of_lt h1 h2]
      ring
    have hcast : cast_u64 (-p.size) = (-p.size).toNat := by
      unfold cast_u64
      have h1 : (0 : Int) ≤ -p.size := le_of_lt hpos
      have h2 : -p.size < 2 ^ 64 := by omega
      rw [Int.emod_eq_of_lt h1 h2]
    have hfit' := hfit hlt
    have hmul : (-p.size).toNat * len < 2 ^ 64 := by omega
    simp only [calculate_size, if_neg hnot, hwrap, hcast,
      Nat.mod_eq_of_lt hmul, Nat.mod_eq_of_lt hfit']

/-- Witness for C7 at `p.size = -8`, `len = 3`:
`calculate_size = ceil_div_8 (32 + 8*3) = 7`. -/
theorem c7_calculate_size_witness :
    (-2 ^ 31 < (-8 : Int)) ∧
    (calculate_size ⟨-8, Ty.ObjList, fun _ => 0⟩ 3 = divide_up (32 + ((-(-8 : Int)).toNat * 3))) ∧
    divide_up (32 + ((-(-8 : Int)).toNat * 3)) = 7 :=
  ⟨by decide,
   (c7_calculate_size ⟨-8, Ty.ObjList, fun _ => 0⟩ 3 (by decide) (fun _ => by decide)).2.1
     (by decide),
   by decide⟩

/-! ### C8: mutator-visible traps -/

/-- C8 counterexample: the claim says each trap prints a *single* fixed line
to standard output, but `div_zero` prints its message line *and* the
`Exited with error code 2` line from `exit_code` — two lines. -/
theorem c8_trap_single_line_counterexample : ¬ div_zero.stdout_lines.length = 1 := by
  decide

/-- C8 (amended): every mutator-visible trap prints exactly two fixed lines
to standard output — its message, then `Exited with error code N` — and
terminates the process with its documented exit code: 1 for invalid
argument, 2 for division by zero, 3 for index out of bounds, 4 for
operation on None. -/
theorem c8_trap_lines_and_codes :
    invalid_arg.stdout_lines = ["Invalid argument", "Exited with error code 1"] ∧
    invalid_arg.code = 1 ∧
    div_zero.stdout_lines = ["Division by zero", "Exited with error code 2"] ∧
    div_zero.code = 2 ∧
    out_of_bound.stdout_lines = ["Index out of bounds", "Exited with error code 3"] ∧
    out_of_bound.code = 3 ∧
    none_op.stdout_lines = ["Operation on None", "Exited with error code 4"] ∧
    none_op.code = 4 := by
  refine ⟨?_, rfl, ?_, rfl, ?_, rfl, ?_, rfl⟩ <;> decide

/-! ### C10: `$len` truncates the 64-bit length to a signed 32-bit value -/

/-- C10: for every non-null object whose tag is `Str`, `ValueList` or
`ObjList`, `$len` returns the stored 64-bit `len` field cast to a signed
32-bit integer (its low 32 bits, two's complement), and consequently
whenever `len ≥ 2^31` the returned value differs from the true element
count. -/
theorem c10_len_truncates (π : Nat → Prototype) (H : Heap) (pointer : Nat)
    (hnull : pointer ≠ 0)
    (htag : (π ((H pointer).protoAddr)).type_tag = Ty.Str ∨
            (π ((H pointer).protoAddr)).type_tag = Ty.ValueList ∨
            (π ((H pointer).protoAddr)).type_tag = Ty.ObjList) :
    len π H pointer = Except.ok (u64_as_i32 ((H pointer).slotVal 0)) ∧
    (2 ^ 31 ≤ (H pointer).slotVal 0 →
      u64_as_i32 ((H pointer).slotVal 0) ≠ ((H pointer).slotVal 0 : Int)) := by
  constructor
  · simp only [len, if_neg hnull, if_pos htag]
  · intro hbig
    have hlt : u64_as_i32 ((H pointer).slotVal 0) < 2 ^ 31 := by
      unfold u64_as_i32
      split
      · exact_mod_cast ‹_›
      · have : ((H pointer).slotVal 0 % 2 ^ 32 : Nat) < 2 ^ 32 :=
          Nat.mod_lt _ (by norm_num)
        have : (((H pointer).slotVal 0 % 2 ^ 32 : Nat) : Int) < 2 ^ 32 := by exact_mod_cast this
        omega
    intro heq
    rw [heq] at hlt
    exact absurd hlt (by exact_mod_cast not_lt.mpr hbig)

/-- Witness for C10: an `ObjList` object at address 5 with stored length
`2^31` yields `$len = -2^31 ≠ 2^31`. -/
theorem c10_len_truncates_witness :
    len (fun _ => ⟨-8, Ty.ObjList, fun _ => 0⟩)
        (fun _ => ⟨0, 0, 0, fun _ => 2 ^ 31⟩) 5 =
      Except.ok (u64_as_i32 (2 ^ 31)) ∧
    (2 ^ 31 ≤ (2 ^ 31 : Nat) →
      u64_as_i32 (2 ^ 31) ≠ ((2 ^ 31 : Nat) : Int)) :=
  c10_len_truncates (fun _ => ⟨-8, Ty.ObjList, fun _ => 0⟩)
    (fun _ => ⟨0, 0, 0, fun _ => 2 ^ 31⟩) 5 (by decide) (Or.inr (Or.inr rfl))

/-! ### The tracer: `mark_reachable_from` from `gc.rs` -/

/-- The byte store `(*object_ptr).gc_is_marked = m`. -/
def setMark (H : Heap) (a m : Nat) : Heap :=
  fun x => if x = a then { H x with mark := m } else H x

/-- `field_count` from `gc.rs`: `((*prototype).size / 8) as usize`
(attribute-slot count of an ordinary object; `0` for the negative sizes of
array prototypes, which compiler-emitted `Other` prototypes never have). -/
def field_count (p : Prototype) : Nat := (p.size / 8).toNat

/-- The outgoing reference slots read by one activation of
`mark_reachable_from` after it has marked `v`, in source order: for `Other`,
attribute slot `i` (byte offset `24 + 8*i`, i.e. `slotVal i`) for each `i`
below `field_count` whose flag `ref_bitmap[i / 8] & (1 << (i % 8))` is
non-zero; for `ObjList`, element `i` (byte offset `32 + 8*i`, i.e.
`slotVal (1 + i)`) for each `i` below the stored `len` (`slotVal 0`); no
slots for any other tag.  An address outside `dom` is not an allocated
object — dereferencing it is undefined behaviour in the source — and is
given no outgoing references. -/
def children (π : Nat → Prototype) (dom : Finset Nat) (H : Heap) (v : Nat) : List Nat :=
  if v ∈ dom then
    match (π ((H v).protoAddr)).type_tag with
    | Ty.Other =>
      (List.range (field_count (π ((H v).protoAddr)))).filterMap fun i =>
        if (π ((H v).protoAddr)).reference_bitmap (i / 8) % 256 &&& (1 <<< (i % 8)) ≠ 0 then
          some ((H v).slotVal i)
        else none
    | Ty.ObjList => (List.range ((H v).slotVal 0)).map fun i => (H v).slotVal (1 + i)
    | _ => []
  else []

lemma card_setMark_lt (dom : Finset Nat) (H : Heap) (v : Nat) (hv : v ∈ dom)
    (hm : (H v).mark ≠ 1) :
    (dom.filter (fun a => ((setMark H v 1) a).mark ≠ 1)).card
      < (dom.filter (fun a => (H a).mark ≠ 1)).card := by
  apply Finset.card_lt_card
  constructor
  · intro a ha
    simp only [Finset.mem_filter] at ha ⊢
    refine ⟨ha.1, ?_⟩
    by_cases h : a = v
    · exfalso
      apply ha.2
      simp [setMark, h]
    · simpa [setMark, h] using ha.2
  · intro hsub
    have hv' : v ∈ dom.filter (fun a => (H a).mark ≠ 1) := by
      simp [Finset.mem_filter, hv, hm]
    have := hsub hv'
    simp [Finset.mem_filter, setMark] at this

lemma card_setMark_eq (dom : Finset Nat) (H : Heap) (v : Nat) (hv : v ∉ dom) :
    (dom.filter (fun a => ((setMark H v 1) a).mark ≠ 1)).card
      = (dom.filter (fun a => (H a).mark ≠ 1)).card := by
  congr 1
  apply Finset.filter_congr
  intro a ha
  have : a ≠ v := by
    rintro rfl
    exact hv ha
  simp [setMark, this]

/-- The recursion of `mark_reachable_from` from `gc.rs`, with the pending
recursive calls made explicit as a work list processed depth-first in source
order: a null or already-marked value changes nothing; otherwise the object
is marked and its reference slots are traced.  Termination: marking a
not-yet-marked allocated object shrinks the unmarked part of `dom`, and a
value outside `dom` contributes no further work. -/
def markList (π : Nat → Prototype) (dom : Finset Nat) : Heap → List Nat → Heap
  | H, [] => H
  | H, v :: rest =>
    if hv : v = 0 then markList π dom H rest
    else if hm : (H v).mark = 1 then markList π dom H rest
    else markList π dom (setMark H v 1) (children π dom H v ++ rest)
termination_by H vs => ((dom.filter (fun a => (H a).mark ≠ 1)).card, vs.length)
decreasing_by
  · apply Prod.Lex.right
    simp
  · apply Prod.Lex.right
    simp
  · by_cases hdom : v ∈ dom
    · apply Prod.Lex.left
      exact card_setMark_lt dom H v hdom hm
    · have hc : children π dom H v = [] := by
        simp [children, hdom]
      rw [card_setMark_eq dom H v hdom, hc]
      apply Prod.Lex.right
      simp

/-- `mark_reachable_from` from `gc.rs`, applied to the value held in one
slot. -/
def mark_reachable_from (π : Nat → Prototype) (dom : Finset Nat) (H : Heap) (v : Nat) : Heap :=
  markList π dom H [v]

lemma markList_nil (π : Nat → Prototype) (dom : Finset Nat) (H : Heap) :
    markList π dom H [] = H := by
  rw [markList]

lemma markList_cons_zero (π : Nat → Prototype) (dom : Finset Nat) (H : Heap) (rest : List Nat) :
    markList π dom H (0 :: rest) = markList π dom H rest := by
  rw [markList]
  simp

lemma markList_cons_marked (π : Nat → Prototype) (dom : Finset Nat) (H : Heap)
    (v : Nat) (rest : List Nat) (hv : v ≠ 0) (hm : (H v).mark = 1) :
    markList π dom H (v :: rest) = markList π dom H rest := by
  rw [markList]
  simp [hv, hm]

lemma markList_cons_new (π : Nat → Prototype) (dom : Finset Nat) (H : Heap)
    (v : Nat) (rest : List Nat) (hv : v ≠ 0) (hm : (H v).mark ≠ 1) :
    markList π dom H (v :: rest)
      = markList π dom (setMark H v 1) (children π dom H v ++ rest) := by
  rw [markList]
  simp [hv, hm]

lemma setMark_ne (H : Heap) (a m x : Nat) (h : x ≠ a) : (setMark H a m) x = H x := by
  simp [setMark, h]

lemma setMark_frame (H : Heap) (a m x : Nat) :
    ((setMark H a m) x).protoAddr = (H x).protoAddr ∧
    ((setMark H a m) x).slotVal = (H x).slotVal ∧
    ((setMark H a m) x).nextAddr = (H x).nextAddr := by
  unfold setMark
  by_cases h : x = a <;> simp [h]

/-- `children` only reads the prototype pointer and the payload words. -/
lemma children_congr (π : Nat → Prototype) (dom : Finset Nat) (H₁ H₂ : Heap) (v : Nat)
    (hp : (H₁ v).protoAddr = (H₂ v).protoAddr) (hs : (H₁ v).slotVal = (H₂ v).slotVal) :
    children π dom H₁ v = children π dom H₂ v := by
  unfold children
  rw [hp, hs]

lemma children_setMark (π : Nat → Prototype) (dom : Finset Nat) (H : Heap) (a m v : Nat) :
    children π dom (setMark H a m) v = children π dom H v :=
  children_congr π dom _ H v (setMark_frame H a m v).1 (setMark_frame H a m v).2.1

/-- The tracer writes only mark bytes: prototype pointers, payload words and
list links are untouched. -/
lemma markList_frame (π : Nat → Prototype) (dom : Finset Nat) (H : Heap) (vs : List Nat)
    (x : Nat) :
    ((markList π dom H vs) x).protoAddr = (H x).protoAddr ∧
    ((markList π dom H vs) x).slotVal = (H x).slotVal ∧
    ((markList π dom H vs) x).nextAddr = (H x).nextAddr := by
  induction H, vs using markList.induct π dom with
  | case1 H => simp [markList_nil]
  | case2 H rest ih => rwa [markList_cons_zero]
  | case3 H v rest hv hm ih => rwa [markList_cons_marked π dom H v rest hv hm]
  | case4 H v rest hv hm ih =>
    rw [markList_cons_new π dom H v rest hv hm]
    refine ⟨?_, ?_, ?_⟩ <;>
      simp only [ih.1, ih.2.1, ih.2.2, (setMark_frame H v 1 x).1,
        (setMark_frame H v 1 x).2.1, (setMark_frame H v 1 x).2.2]

lemma children_markList (π : Nat → Prototype) (dom : Finset Nat) (H : Heap) (vs : List Nat)
    (v : Nat) :
    children π dom (markList π dom H vs) v = children π dom H v :=
  children_congr π dom _ H v (markList_frame π dom H vs v).1 (markList_frame π dom H vs v).2.1

/-- Marks are never cleared by the tracer. -/
lemma markList_mono (π : Nat → Prototype) (dom : Finset Nat) (H : Heap) (vs : List Nat)
    (a : Nat) (h : (H a).mark = 1) : ((markList π dom H vs) a).mark = 1 := by
  induction H, vs using markList.induct π dom with
  | case1 H => rwa [markList_nil]
  | case2 H rest ih => rw [markList_cons_zero]; exact ih h
  | case3 H v rest hv hm ih => rw [markList_cons_marked π dom H v rest hv hm]; exact ih h
  | case4 H v rest hv hm ih =>
    rw [markList_cons_new π dom H v rest hv hm]
    apply ih
    by_cases hav : a = v <;> simp [setMark, hav, h]

/-- Every non-null value on the work list ends up marked. -/
lemma markList_mem (π : Nat → Prototype) (dom : Finset Nat) (H : Heap) (vs : List Nat)
    (r : Nat) (hr : r ∈ vs) (hrne : r ≠ 0) : ((markList π dom H vs) r).mark = 1 := by
  induction H, vs using markList.induct π dom with
  | case1 H => cases hr
  | case2 H rest ih =>
    rw [markList_cons_zero]
    rcases List.mem_cons.mp hr with h0 | hmem
    · exact absurd h0 hrne
    · exact ih hmem
  | case3 H v rest hv hm ih =>
    rw [markList_cons_marked π dom H v rest hv hm]
    rcases List.mem_cons.mp hr with h0 | hmem
    · subst h0
      exact markList_mono π dom H rest r hm
    · exact ih hmem
  | case4 H v rest hv hm ih =>
    rw [markList_cons_new π dom H v rest hv hm]
    rcases List.mem_cons.mp hr with h0 | hmem
    · subst h0
      apply markList_mono
      simp [setMark]
    · exact ih (List.mem_append.mpr (Or.inr hmem))

/-- The reference-reachability relation of the claims: `Reach π dom H v x`
holds when `x` is `v` or can be reached from `v` by repeatedly following the
non-null reference slots that the tracer inspects (attribute slots selected
by the prototype reference bitmap for `Other` objects, all element slots for
`ObjList` arrays). -/
inductive Reach (π : Nat → Prototype) (dom : Finset Nat) (H : Heap) : Nat → Nat → Prop
  | refl (v : Nat) : Reach π dom H v v
  | step {v w x : Nat} : Reach π dom H v w → x ∈ children π dom H w → x ≠ 0 →
      Reach π dom H v x

lemma Reach.trans {π : Nat → Prototype} {dom : Finset Nat} {H : Heap} {u v w : Nat}
    (h₁ : Reach π dom H u v) (h₂ : Reach π dom H v w) : Reach π dom H u w := by
  induction h₂ with
  | refl => exact h₁
  | step _ hc hne ih => exact Reach.step ih hc hne

lemma Reach_congr {π : Nat → Prototype} {dom : Finset Nat} {H₁ H₂ : Heap}
    (h : ∀ v, children π dom H₁ v = children π dom H₂ v) {v x : Nat}
    (hr : Reach π dom H₁ v x) : Reach π dom H₂ v x := by
  induction hr with
  | refl => exact Reach.refl _
  | step _ hc hne ih => exact Reach.step ih (h _ ▸ hc) hne

/-- Soundness of marking: any newly set mark belongs to an object reachable
from a non-null value of the work list. -/
lemma markList_sound (π : Nat → Prototype) (dom : Finset Nat) (H : Heap) (vs : List Nat)
    (a : Nat) (h : ((markList π dom H vs) a).mark = 1) :
    (H a).mark = 1 ∨ ∃ r ∈ vs, r ≠ 0 ∧ Reach π dom H r a := by
  induction H, vs using markList.induct π dom with
  | case1 H => rw [markList_nil] at h; exact Or.inl h
  | case2 H rest ih =>
    rw [markList_cons_zero] at h
    rcases ih h with h1 | ⟨r, hr, hrne, hra⟩
    · exact Or.inl h1
    · exact Or.inr ⟨r, List.mem_cons_of_mem _ hr, hrne, hra⟩
  | case3 H v rest hv hm ih =>
    rw [markList_cons_marked π dom H v rest hv hm] at h
    rcases ih h with h1 | ⟨r, hr, hrne, hra⟩
    · exact Or.inl h1
    · exact Or.inr ⟨r, List.mem_cons_of_mem _ hr, hrne, hra⟩
  | case4 H v rest hv hm ih =>
    rw [markList_cons_new π dom H v rest hv hm] at h
    have hch : ∀ w, children π dom (setMark H v 1) w = children π dom H w :=
      fun w => children_setMark π dom H v 1 w
    rcases ih h with h1 | ⟨r, hr, hrne, hra⟩
    · by_cases hav : a = v
      · subst hav
        exact Or.inr ⟨a, List.mem_cons_self _ _, hv, Reach.refl a⟩
      · rw [setMark_ne H v 1 a hav] at h1
        exact Or.inl h1
    · have hra' : Reach π dom H r a := Reach_congr hch hra
      rcases List.mem_append.mp hr with hc | hrest
      · refine Or.inr ⟨v, List.mem_cons_self _ _, hv, ?_⟩
        exact Reach.trans (Reach.step (Reach.refl v) hc hrne) hra'
      · exact Or.inr ⟨r, List.mem_cons_of_mem _ hrest, hrne, hra'⟩

/-- Invariant of the marking loop: every reference slot of a marked object
leads to null, to a marked object, or to a pending work-list value. -/
def MarkInv (π : Nat → Prototype) (dom : Finset Nat) (H : Heap) (vs : List Nat) : Prop :=
  ∀ a, (H a).mark = 1 → ∀ w ∈ children π dom H a, w = 0 ∨ (H w).mark = 1 ∨ w ∈ vs

lemma markList_closed (π : Nat → Prototype) (dom : Finset Nat) (H : Heap) (vs : List Nat)
    (hinv : MarkInv π dom H vs) :
    ∀ a, ((markList π dom H vs) a).mark = 1 →
      ∀ w ∈ children π dom H a, w = 0 ∨ ((markList π dom H vs) w).mark = 1 := by
  induction H, vs using markList.induct π dom with
  | case1 H =>
    rw [markList_nil]
    intro a ha w hw
    rcases hinv a ha w hw with h0 | h1 | hmem
    · exact Or.inl h0
    · exact Or.inr h1
    · cases hmem
  | case2 H rest ih =>
    rw [markList_cons_zero]
    apply ih
    intro a ha w hw
    rcases hinv a ha w hw with h0 | h1 | hmem
    · exact Or.inl h0
    · exact Or.inr (Or.inl h1)
    · rcases List.mem_cons.mp hmem with h0 | hmem'
      · exact Or.inl h0
      · exact Or.inr (Or.inr hmem')
  | case3 H v rest hv hm ih =>
    rw [markList_cons_marked π dom H v rest hv hm]
    apply ih
    intro a ha w hw
    rcases hinv a ha w hw with h0 | h1 | hmem
    · exact Or.inl h0
    · exact Or.inr (Or.inl h1)
    · rcases List.mem_cons.mp hmem with heq | hmem'
      · subst heq
        exact Or.inr (Or.inl hm)
      · exact Or.inr (Or.inr hmem')
  | case4 H v rest hv hm ih =>
    rw [markList_cons_new π dom H v rest hv hm]
    have hch : ∀ w, children π dom (setMark H v 1) w = children π dom H w :=
      fun w => children_setMark π dom H v 1 w
    intro a ha w hw
    rw [← hch a] at hw
    refine ih ?_ a ha w hw
    intro b hb u hu
    rw [hch b] at hu
    by_cases hbv : b = v
    · subst hbv
      exact Or.inr (Or.inr (List.mem_append.mpr (Or.inl hu)))
    · rw [setMark_ne H v 1 b hbv] at hb
      rcases hinv b hb u hu with h0 | h1 | hmem
      · exact Or.inl h0
      · refine Or.inr (Or.inl ?_)
        by_cases huv : u = v <;> simp [setMark, huv, h1]
      · rcases List.mem_cons.mp hmem with heq | hmem'
        · subst heq
          refine Or.inr (Or.inl ?_)
          simp [setMark]
        · exact Or.inr (Or.inr (List.mem_append.mpr (Or.inr hmem')))

/-- Completeness of marking: if no allocated object is marked at the start
(invariant 3 of the data model), every object reachable from a non-null
work-list value is marked at the end. -/
lemma markList_complete (π : Nat → Prototype) (dom : Finset Nat) (H : Heap) (vs : List Nat)
    (hm : ∀ a, (H a).mark = 1 → a ∉ dom)
    (r o : Nat) (hr : r ∈ vs) (hrne : r ≠ 0) (hro : Reach π dom H r o) :
    ((markList π dom H vs) o).mark = 1 := by
  have hinv : MarkInv π dom H vs := by
    intro a ha w hw
    have : children π dom H a = [] := by
      simp [children, hm a ha]
    rw [this] at hw
    cases hw
  have hclosed := markList_closed π dom H vs hinv
  induction hro with
  | refl => exact markList_mem π dom H vs r hr hrne
  | step hreach hc hne ih =>
    rcases hclosed _ ih _ hc with h0 | h1
    · exact absurd h0 hne
    · exact h1

/-- Processing a concatenated work list marks exactly what processing the
two halves in sequence marks (the per-frame and per-slot calls of the source
compose this way). -/
lemma markList_append (π : Nat → Prototype) (dom : Finset Nat) (H : Heap)
    (xs ys : List Nat) :
    markList π dom H (xs ++ ys) = markList π dom (markList π dom H xs) ys := by
  induction H, xs using markList.induct π dom with
  | case1 H => rw [markList_nil, List.nil_append]
  | case2 H rest ih => rw [List.cons_append, markList_cons_zero, markList_cons_zero, ih]
  | case3 H v rest hv hm ih =>
    rw [List.cons_append, markList_cons_marked π dom H v _ hv hm,
      markList_cons_marked π dom H v rest hv hm, ih]
  | case4 H v rest hv hm ih =>
    rw [List.cons_append, markList_cons_new π dom H v _ hv hm,
      markList_cons_new π dom H v rest hv hm, ← List.append_assoc, ih]

/-! ### C3: the tracer follows exactly the described slots -/

lemma byte_flag_iff (b i : Nat) (hi : i < 8) :
    (b % 256 &&& (1 <<< i) ≠ 0) ↔ b.testBit i := by
  have h256 : (256 : Nat) = 2 ^ 8 := by norm_num
  rw [Nat.shiftLeft_eq, one_mul, h256, Nat.and_two_pow]
  have hmod : (b % 2 ^ 8).testBit i = b.testBit i := by
    rw [Nat.testBit_mod_two_pow]
    simp [hi]
  rw [hmod]
  cases h : b.testBit i <;> simp

/-- The reference slots described by the claim, in its words: for `Other`,
attribute slot `i` (byte offset `24 + 8*i`) for each `i` in
`0..(prototype.size / 8)` whose bit `i` of the prototype's reference bitmap
is set (bit `i % 8` of byte `i / 8`); for `ObjList`, element slot `i` (byte
offset `32 + 8*i`) for each `i` in `0..len`; nothing for any other tag. -/
def children_spec (π : Nat → Prototype) (H : Heap) (v : Nat) : List Nat :=
  match (π ((H v).protoAddr)).type_tag with
  | Ty.Other =>
    (List.range ((π ((H v).protoAddr)).size / 8).toNat).filterMap fun i =>
      if ((π ((H v).protoAddr)).reference_bitmap (i / 8)).testBit (i % 8) then
        some ((H v).slotVal i)
      else none
  | Ty.ObjList => (List.range ((H v).slotVal 0)).map fun i => (H v).slotVal (1 + i)
  | _ => []

lemma children_eq_spec (π : Nat → Prototype) (dom : Finset Nat) (H : Heap) (v : Nat)
    (hdom : v ∈ dom) : children π dom H v = children_spec π H v := by
  unfold children children_spec field_count
  rw [if_pos hdom]
  cases htag : (π ((H v).protoAddr)).type_tag
  case Other =>
    apply List.filterMap_congr
    intro i _
    have hi : i % 8 < 8 := Nat.mod_lt _ (by norm_num)
    by_cases hbit : ((π ((H v).protoAddr)).reference_bitmap (i / 8)).testBit (i % 8)
    · rw [if_pos hbit, if_pos ((byte_flag_iff _ _ hi).mpr hbit)]
    · rw [if_neg hbit, if_neg (fun hc => hbit ((byte_flag_iff _ _ hi).mp hc))]
  all_goals rfl

/-- C3: a slot holding null or an already-marked object changes nothing;
otherwise the tracer sets the object's mark to 1 and then recurses on
exactly the slots the claim describes: for `Other`, the attribute slots
`i ∈ 0..(prototype.size / 8)` (byte offset `24 + 8*i`) whose bit `i` is set
in the prototype's reference bitmap; for `ObjList`, every element slot
`i ∈ 0..len` (byte offset `32 + 8*i`); and no slots for `Int`, `Bool`,
`Str`, `ValueList`. -/
theorem c3_mark_reachable_from (π : Nat → Prototype) (dom : Finset Nat) (H : Heap) (v : Nat) :
    ((v = 0 ∨ (H v).mark = 1) → mark_reachable_from π dom H v = H) ∧
    (v ≠ 0 → (H v).mark ≠ 1 → v ∈ dom →
      mark_reachable_from π dom H v
        = markList π dom (setMark H v 1) (children_spec π H v)) := by
  constructor
  · rintro (hv | hm)
    · subst hv
      rw [mark_reachable_from, markList_cons_zero, markList_nil]
    · by_cases hv : v = 0
      · subst hv
        rw [mark_reachable_from, markList_cons_zero, markList_nil]
      · rw [mark_reachable_from, markList_cons_marked π dom H v [] hv hm, markList_nil]
  · intro hv hm hdom
    rw [mark_reachable_from, markList_cons_new π dom H v [] hv hm, List.append_nil,
      children_eq_spec π dom H v hdom]

/-- Witness for C3: a two-object heap where object 5 has one reference
attribute; tracing a slot holding 5 recurses on exactly that attribute
slot, and tracing a null slot changes nothing. -/
theorem c3_mark_reachable_from_witness :
    mark_reachable_from (fun _ => ⟨8, Ty.Other, fun _ => 1⟩) {5}
        (fun _ => ⟨0, 0, 0, fun _ => 0⟩) 5
      = markList (fun _ => ⟨8, Ty.Other, fun _ => 1⟩) {5}
          (setMark (fun _ => ⟨0, 0, 0, fun _ => 0⟩) 5 1)
          (children_spec (fun _ => ⟨8, Ty.Other, fun _ => 1⟩)
            (fun _ => ⟨0, 0, 0, fun _ => 0⟩) 5) ∧
    mark_reachable_from (fun _ => ⟨8, Ty.Other, fun _ => 1⟩) {5}
        (fun _ => ⟨0, 0, 0, fun _ => 0⟩) 0
      = (fun _ => ⟨0, 0, 0, fun _ => 0⟩) :=
  ⟨(c3_mark_reachable_from (fun _ => ⟨8, Ty.Other, fun _ => 1⟩) {5}
      (fun _ => ⟨0, 0, 0, fun _ => 0⟩) 5).2 (by decide) (by decide) (by decide),
   (c3_mark_reachable_from (fun _ => ⟨8, Ty.Other, fun _ => 1⟩) {5}
      (fun _ => ⟨0, 0, 0, fun _ => 0⟩) 0).1 (Or.inl rfl)⟩

/-! ### The sweeper: the sweep phase of `perform_mark_and_sweep_gc` -/

/-- The sweep cursor of `gc.rs`: `cursor` is either `&mut head` (the local
copy of `GC_HEAD`) or `&mut (*object).gc_next` of the last kept object. -/
inductive Cursor
  | headSlot
  | nextOf (a : Nat)
deriving DecidableEq

/-- State of the sweep loop: the head slot, the heap, the objects released
so far (`drop(Box::from_raw(..))` calls, in order), and `reclaimed_units`. -/
structure SweepSt where
  head : Nat
  H : Heap
  freed : List Nat
  reclaimed : Nat

/-- `*cursor` (read). -/
def curRead (s : SweepSt) : Cursor → Nat
  | Cursor.headSlot => s.head
  | Cursor.nextOf a => (s.H a).nextAddr

/-- The word store `(*object).gc_next = v`. -/
def setNext (H : Heap) (a v : Nat) : Heap :=
  fun x => if x = a then { H x with nextAddr := v } else H x

/-- `*cursor = v` (write). -/
def curWrite (s : SweepSt) (c : Cursor) (v : Nat) : SweepSt :=
  match c with
  | Cursor.headSlot => { s with head := v }
  | Cursor.nextOf a => { s with H := setNext s.H a v }

/-- Size in allocation units recomputed from the object header at sweep
time — `calculate_size((*object_ptr).prototype, || (*(object_ptr as *mut
ArrayObject)).len)` — with the array length read from the object itself
(the word at byte offset 24, `slotVal 0`). -/
def size_units (π : Nat → Prototype) (H : Heap) (a : Nat) : Nat :=
  calculate_size (π ((H a).protoAddr)) ((H a).slotVal 0)

/-- The sweep loop of `gc.rs`: while `*cursor` is non-null, keep a marked
object (clearing its mark and moving the cursor into its `gc_next` field)
or unlink and release an unmarked one (patching `*cursor` to its
`gc_next`).  `fuel` bounds the iterations so the model is total; the
characterization lemma shows the fuel is never exhausted on a well-formed
object list. -/
def sweepLoop (π : Nat → Prototype) : Nat → SweepSt → Cursor → Option SweepSt
  | 0, s, c => if curRead s c = 0 then some s else none
  | fuel + 1, s, c =>
    let v := curRead s c
    if v = 0 then some s
    else if (s.H v).mark = 1 then
      sweepLoop π fuel { s with H := setMark s.H v 0 } (Cursor.nextOf v)
    else
      sweepLoop π fuel
        (curWrite { s with freed := s.freed ++ [v],
                           reclaimed := s.reclaimed + size_units π s.H v }
          c ((s.H v).nextAddr))
        c

/-- Walking `gc_next` links starting from the value `h`: the visited
objects, or `none` when `fuel` iterations did not reach null. -/
def chainList (H : Heap) : Nat → Nat → Option (List Nat)
  | 0, h => if h = 0 then some [] else none
  | fuel + 1, h =>
    if h = 0 then some []
    else (chainList H fuel ((H h).nextAddr)).map (fun l => h :: l)

lemma chainList_zero (H : Heap) (h : Nat) :
    chainList H 0 h = if h = 0 then some [] else none := rfl

lemma chainList_succ (H : Heap) (fuel h : Nat) :
    chainList H (fuel + 1) h
      = if h = 0 then some []
        else (chainList H fuel ((H h).nextAddr)).map (fun l => h :: l) := rfl

lemma chainList_cons_elim (H : Heap) (h x : Nat) (xs : List Nat)
    (hc : chainList H (xs.length + 1) h = some (x :: xs)) :
    h = x ∧ x ≠ 0 ∧ chainList H xs.length ((H x).nextAddr) = some xs := by
  rw [chainList_succ] at hc
  by_cases h0 : h = 0
  · simp [h0] at hc
  · rw [if_neg h0] at hc
    rcases Option.map_eq_some'.mp hc with ⟨l', hl', heq⟩
    have hhx : h = x := (List.cons.injEq _ _ _ _ ▸ heq).1
    have hlx : l' = xs := (List.cons.injEq _ _ _ _ ▸ heq).2
    subst hhx
    subst hlx
    exact ⟨rfl, h0, hl'⟩

lemma chainList_congr (H₁ H₂ : Heap) (l : List Nat) (h : Nat)
    (hag : ∀ a ∈ l, (H₁ a).nextAddr = (H₂ a).nextAddr)
    (hc : chainList H₁ l.length h = some l) :
    chainList H₂ l.length h = some l := by
  induction l generalizing h with
  | nil =>
    rw [List.length_nil, chainList_zero] at hc ⊢
    by_cases h0 : h = 0
    · rw [if_pos h0]
    · rw [if_neg h0] at hc
      cases hc
  | cons x xs ih =>
    rcases chainList_cons_elim H₁ h x xs hc with ⟨rfl, hne, htail⟩
    rw [List.length_cons, chainList_succ, if_neg hne]
    have htail₂ : chainList H₂ xs.length ((H₂ h).nextAddr) = some xs := by
      rw [← hag h (List.mem_cons_self _ _)]
      exact ih _ (fun a ha => hag a (List.mem_cons_of_mem _ ha)) htail
    rw [htail₂]
    rfl

lemma curRead_curWrite (s : SweepSt) (c : Cursor) (v : Nat) :
    curRead (curWrite s c v) c = v := by
  cases c with
  | headSlot => rfl
  | nextOf a => simp [curRead, curWrite, setNext]

lemma curWrite_marks (s : SweepSt) (c : Cursor) (v a : Nat) :
    (((curWrite s c v).H a).mark, ((curWrite s c v).H a).protoAddr,
      ((curWrite s c v).H a).slotVal)
      = ((s.H a).mark, (s.H a).protoAddr, (s.H a).slotVal) := by
  cases c with
  | headSlot => rfl
  | nextOf b =>
    simp only [curWrite, setNext]
    by_cases hab : a = b <;> simp [hab]

lemma curWrite_head (s : SweepSt) (b : Nat) (v : Nat) :
    (curWrite s (Cursor.nextOf b) v).head = s.head := rfl

lemma curWrite_next_ne (s : SweepSt) (c : Cursor) (v b : Nat)
    (hb : c ≠ Cursor.nextOf b) :
    ((curWrite s c v).H b).nextAddr = (s.H b).nextAddr := by
  cases c with
  | headSlot => rfl
  | nextOf a =>
    have : b ≠ a := fun h => hb (by rw [h])
    simp [curWrite, setNext, this]

lemma sweepLoop_zero (π : Nat → Prototype) (s : SweepSt) (c : Cursor) :
    sweepLoop π 0 s c = if curRead s c = 0 then some s else none := rfl

lemma sweepLoop_succ (π : Nat → Prototype) (fuel : Nat) (s : SweepSt) (c : Cursor) :
    sweepLoop π (fuel + 1) s c
      = if curRead s c = 0 then some s
        else if (s.H (curRead s c)).mark = 1 then
          sweepLoop π fuel { s with H := setMark s.H (curRead s c) 0 }
            (Cursor.nextOf (curRead s c))
        else
          sweepLoop π fuel
            (curWrite { s with freed := s.freed ++ [curRead s c],
                               reclaimed := s.reclaimed + size_units π s.H (curRead s c) }
              c ((s.H (curRead s c)).nextAddr))
            c := rfl

lemma size_units_congr (π : Nat → Prototype) (H₁ H₂ : Heap) (a : Nat)
    (hp : (H₁ a).protoAddr = (H₂ a).protoAddr) (hs : (H₁ a).slotVal = (H₂ a).slotVal) :
    size_units π H₁ a = size_units π H₂ a := by
  unfold size_units
  rw [hp, hs]

/-- Characterization of the sweep: on a well-formed object list `l` the
loop completes, keeps exactly the marked objects in order (clearing their
marks), releases exactly the unmarked ones in order, counts their sizes,
and touches nothing else. -/
lemma sweepLoop_spec (π : Nat → Prototype) (l : List Nat) :
    ∀ (s : SweepSt) (c : Cursor),
      chainList s.H l.length (curRead s c) = some l →
      l.Nodup →
      (∀ b, c = Cursor.nextOf b → b ∉ l) →
      ∃ s', sweepLoop π l.length s c = some s' ∧
        chainList s'.H (l.filter (fun a => (s.H a).mark = 1)).length (curRead s' c)
          = some (l.filter (fun a => (s.H a).mark = 1)) ∧
        s'.freed = s.freed ++ l.filter (fun a => ¬ (s.H a).mark = 1) ∧
        s'.reclaimed
          = s.reclaimed
            + ((l.filter (fun a => ¬ (s.H a).mark = 1)).map (size_units π s.H)).sum ∧
        (∀ a, (s'.H a).protoAddr = (s.H a).protoAddr) ∧
        (∀ a, (s'.H a).slotVal = (s.H a).slotVal) ∧
        (∀ a, (s'.H a).mark = if a ∈ l ∧ (s.H a).mark = 1 then 0 else (s.H a).mark) ∧
        (c ≠ Cursor.headSlot → s'.head = s.head) ∧
        (∀ b, b ∉ l → c ≠ Cursor.nextOf b → (s'.H b).nextAddr = (s.H b).nextAddr) := by
  induction l with
  | nil =>
    intro s c hc _ _
    rw [List.length_nil, chainList_zero] at hc
    by_cases h0 : curRead s c = 0
    · refine ⟨s, ?_, ?_, by simp, by simp, fun a => rfl, fun a => rfl,
        fun a => by simp, fun _ => rfl, fun b _ _ => rfl⟩
      · rw [List.length_nil, sweepLoop_zero, if_pos h0]
      · simp only [List.filter_nil, List.length_nil, chainList_zero, if_pos h0]
    · rw [if_neg h0] at hc
      cases hc
  | cons x xs ih =>
    intro s c hc hnd hcb
    obtain ⟨hcx, hxne, htail⟩ := chainList_cons_elim s.H _ x xs
      (by rwa [List.length_cons] at hc)
    have hndx : x ∉ xs := (List.nodup_cons.mp hnd).1
    have hndxs : xs.Nodup := (List.nodup_cons.mp hnd).2
    rw [List.length_cons, sweepLoop_succ, hcx, if_neg hxne]
    by_cases hmark : (s.H x).mark = 1
    · -- the object is marked: clear the mark and advance the cursor into it
      rw [if_pos hmark]
      have hfr : ∀ a, ((setMark s.H x 0) a).nextAddr = (s.H a).nextAddr :=
        fun a => (setMark_frame s.H x 0 a).2.2
      have hchain₁ : chainList (setMark s.H x 0) xs.length
          (curRead { s with H := setMark s.H x 0 } (Cursor.nextOf x)) = some xs := by
        have : curRead { s with H := setMark s.H x 0 } (Cursor.nextOf x)
            = (s.H x).nextAddr := by
          simp [curRead, hfr x]
        rw [this]
        exact chainList_congr s.H _ xs _ (fun a _ => (hfr a).symm) htail
      obtain ⟨s', hrun, hchain', hfreed', hrecl', hproto', hslot', hmark', hhead', hnext'⟩ :=
        ih { s with H := setMark s.H x 0 } (Cursor.nextOf x) hchain₁ hndxs
          (fun b hb => by
            cases hb
            exact hndx)
      have hfilter_eq : xs.filter (fun a => ((setMark s.H x 0) a).mark = 1)
          = xs.filter (fun a => (s.H a).mark = 1) := by
        apply List.filter_congr
        intro a ha
        have hax : a ≠ x := fun h => hndx (h ▸ ha)
        rw [setMark_ne s.H x 0 a hax]
      have hfilter_ne : xs.filter (fun a => ¬ ((setMark s.H x 0) a).mark = 1)
          = xs.filter (fun a => ¬ (s.H a).mark = 1) := by
        apply List.filter_congr
        intro a ha
        have hax : a ≠ x := fun h => hndx (h ▸ ha)
        rw [setMark_ne s.H x 0 a hax]
      have hsize_eq : (xs.filter (fun a => ¬ (s.H a).mark = 1)).map
            (size_units π (setMark s.H x 0))
          = (xs.filter (fun a => ¬ (s.H a).mark = 1)).map (size_units π s.H) := by
        apply List.map_congr_left
        intro a _
        exact size_units_congr π _ s.H a (setMark_frame s.H x 0 a).1
          (setMark_frame s.H x 0 a).2.1
      refine ⟨s', hrun, ?_, ?_, ?_, ?_, ?_, ?_, ?_, ?_⟩
      · -- the new chain is x followed by the kept part of the tail
        have hfx : (x :: xs).filter (fun a => (s.H a).mark = 1)
            = x :: xs.filter (fun a => (s.H a).mark = 1) := by
          simp [List.filter_cons, hmark]
        have hread : curRead s' c = x := by
          cases c with
          | headSlot =>
            have : s'.head = s.head := by
              rw [hhead' (by simp)]
            simpa [curRead, this] using hcx
          | nextOf b =>
            have hbl : b ∉ x :: xs := hcb b rfl
            have hbx : b ∉ xs := fun h => hbl (List.mem_cons_of_mem _ h)
            have hne2 : Cursor.nextOf x ≠ Cursor.nextOf b := by
              intro h
              cases h
              exact hbl (List.mem_cons_self _ _)
            have := hnext' b hbx hne2
            simp only [curRead] at hcx ⊢
            rw [this, hfr b]
            exact hcx
        rw [hfx, List.length_cons, hread, chainList_succ, if_neg hxne]
        have hnx : (s'.H x).nextAddr = curRead s' (Cursor.nextOf x) := rfl
        rw [hnx]
        rw [hfilter_eq] at hchain'
        rw [hchain']
        rfl
      · rw [hfreed', hfilter_ne]
        have : (x :: xs).filter (fun a => ¬ (s.H a).mark = 1)
            = xs.filter (fun a => ¬ (s.H a).mark = 1) := by
          simp [List.filter_cons, hmark]
        rw [this]
      · rw [hrecl', hfilter_ne, hsize_eq]
        have : (x :: xs).filter (fun a => ¬ (s.H a).mark = 1)
            = xs.filter (fun a => ¬ (s.H a).mark = 1) := by
          simp [List.filter_cons, hmark]
        rw [this]
      · intro a
        rw [hproto' a, (setMark_frame s.H x 0 a).1]
      · intro a
        rw [hslot' a, (setMark_frame s.H x 0 a).2.1]
      · intro a
        rw [hmark' a]
        dsimp only
        by_cases hax : a = x
        · subst hax
          have h0 : (setMark s.H a 0 a).mark = 0 := by
            simp [setMark]
          have hcond : ¬ (a ∈ xs ∧ (setMark s.H a 0 a).mark = 1) := fun h => hndx h.1
          rw [if_neg hcond, if_pos ⟨List.mem_cons_self _ _, hmark⟩, h0]
        · rw [setMark_ne s.H x 0 a hax]
          by_cases hin : a ∈ xs ∧ (s.H a).mark = 1
          · rw [if_pos hin, if_pos ⟨List.mem_cons_of_mem _ hin.1, hin.2⟩]
          · have hcond2 : ¬ (a ∈ x :: xs ∧ (s.H a).mark = 1) := by
              intro h
              rcases List.mem_cons.mp h.1 with h1 | h1
              · exact hax h1
              · exact hin ⟨h1, h.2⟩
            rw [if_neg hin, if_neg hcond2]
      · intro hch
        rw [hhead' (by simp)]
      · intro b hbl hcb'
        have hbx : b ∉ xs := fun h => hbl (List.mem_cons_of_mem _ h)
        have hne2 : Cursor.nextOf x ≠ Cursor.nextOf b := by
          intro h
          cases h
          exact hbl (List.mem_cons_self _ _)
        rw [hnext' b hbx hne2, hfr b]
    · -- the object is unmarked: unlink it, release its storage
      rw [if_neg hmark]
      set s₁ : SweepSt :=
        curWrite { s with freed := s.freed ++ [x],
                          reclaimed := s.reclaimed + size_units π s.H x }
          c ((s.H x).nextAddr) with hs₁
      have hb₀ : ∀ b, c = Cursor.nextOf b → b ∉ x :: xs := hcb
      have hmarks₁ : ∀ a, (s₁.H a).mark = (s.H a).mark :=
        fun a => congrArg (fun t => t.1) (curWrite_marks _ c _ a)
      have hproto₁ : ∀ a, (s₁.H a).protoAddr = (s.H a).protoAddr :=
        fun a => congrArg (fun t => t.2.1) (curWrite_marks _ c _ a)
      have hslot₁ : ∀ a, (s₁.H a).slotVal = (s.H a).slotVal :=
        fun a => congrArg (fun t => t.2.2) (curWrite_marks _ c _ a)
      have hnext₁ : ∀ a ∈ xs, (s₁.H a).nextAddr = (s.H a).nextAddr := by
        intro a ha
        cases hcc : c with
        | headSlot => rw [hs₁, hcc]; rfl
        | nextOf b =>
          have hbl : b ∉ x :: xs := hcb b hcc
          have : a ≠ b := fun h => hbl (h ▸ List.mem_cons_of_mem _ ha)
          rw [hs₁, hcc]
          simp [curWrite, setNext, this]
      have hchain₁ : chainList s₁.H xs.length (curRead s₁ c) = some xs := by
        rw [hs₁, curRead_curWrite]
        exact chainList_congr s.H _ xs _ (fun a ha => (hnext₁ a ha).symm) htail
      obtain ⟨s', hrun, hchain', hfreed', hrecl', hproto', hslot', hmark', hhead', hnext'⟩ :=
        ih s₁ c hchain₁ hndxs
          (fun b hb => fun hmem => hb₀ b hb (List.mem_cons_of_mem _ hmem))
      have hfilter_eq : xs.filter (fun a => (s₁.H a).mark = 1)
          = xs.filter (fun a => (s.H a).mark = 1) := by
        apply List.filter_congr
        intro a _
        rw [hmarks₁ a]
      have hfilter_ne : xs.filter (fun a => ¬ (s₁.H a).mark = 1)
          = xs.filter (fun a => ¬ (s.H a).mark = 1) := by
        apply List.filter_congr
        intro a _
        rw [hmarks₁ a]
      have hsize_eq : (xs.filter (fun a => ¬ (s₁.H a).mark = 1)).map (size_units π s₁.H)
          = (xs.filter (fun a => ¬ (s.H a).mark = 1)).map (size_units π s.H) := by
        rw [hfilter_ne]
        apply List.map_congr_left
        intro a _
        exact size_units_congr π _ s.H a (hproto₁ a) (hslot₁ a)
      refine ⟨s', hrun, ?_, ?_, ?_, ?_, ?_, ?_, ?_, ?_⟩
      · have hfx : (x :: xs).filter (fun a => (s.H a).mark = 1)
            = xs.filter (fun a => (s.H a).mark = 1) := by
          simp [List.filter_cons, hmark]
        rw [hfx, ← hfilter_eq]
        exact hchain'
      · rw [hfreed']
        have : s₁.freed = s.freed ++ [x] := by
          rw [hs₁]
          cases c <;> rfl
        rw [this, hfilter_ne]
        have hfx : (x :: xs).filter (fun a => ¬ (s.H a).mark = 1)
            = x :: xs.filter (fun a => ¬ (s.H a).mark = 1) := by
          simp [List.filter_cons, hmark]
        rw [hfx, List.append_assoc]
        rfl
      · rw [hrecl']
        have : s₁.reclaimed = s.reclaimed + size_units π s.H x := by
          rw [hs₁]
          cases c <;> rfl
        rw [this, hsize_eq]
        have hfx : (x :: xs).filter (fun a => ¬ (s.H a).mark = 1)
            = x :: xs.filter (fun a => ¬ (s.H a).mark = 1) := by
          simp [List.filter_cons, hmark]
        rw [hfx, List.map_cons, List.sum_cons]
        ring
      · intro a
        rw [hproto' a, hproto₁ a]
      · intro a
        rw [hslot' a, hslot₁ a]
      · intro a
        rw [hmark' a, hmarks₁ a]
        by_cases hax : a = x
        · subst hax
          have hnotin : ¬ (a ∈ xs ∧ (s.H a).mark = 1) := fun h => hndx h.1
          have hnotin2 : ¬ (a ∈ a :: xs ∧ (s.H a).mark = 1) := fun h => hmark h.2
          rw [if_neg hnotin, if_neg hnotin2]
        · by_cases hin : a ∈ xs ∧ (s.H a).mark = 1
          · rw [if_pos hin, if_pos ⟨List.mem_cons_of_mem _ hin.1, hin.2⟩]
          · have hcond2 : ¬ (a ∈ x :: xs ∧ (s.H a).mark = 1) := by
              intro h
              rcases List.mem_cons.mp h.1 with h1 | h1
              · exact hax h1
              · exact hin ⟨h1, h.2⟩
            rw [if_neg hin, if_neg hcond2]
      · intro hch
        rw [hhead' hch]
        rw [hs₁]
        cases hcc : c with
        | headSlot => exact absurd hcc hch
        | nextOf b => rfl
      · intro b hbl hcb'
        have hbx : b ∉ xs := fun h => hbl (List.mem_cons_of_mem _ h)
        rw [hnext' b hbx hcb']
        rw [hs₁]
        cases hcc : c with
        | headSlot => rfl
        | nextOf a =>
          have hba : b ≠ a := by
            intro h
            exact hcb' (by rw [h, hcc])
          simp [curWrite, setNext, hba]

/-! ### The root enumerator: stack walk and globals walk of
`perform_mark_and_sweep_gc` -/

/-- `read_i32_le` from `gc.rs`: assemble 4 consecutive bytes little-endian
and interpret them as a signed 32-bit integer. -/
def read_i32_le (byte : Int → Nat) (p : Int) : Int :=
  let u : Nat := byte p % 256 + 256 * (byte (p + 1) % 256)
    + 65536 * (byte (p + 2) % 256) + 16777216 * (byte (p + 3) % 256)
  if u < 2 ^ 31 then (u : Int) else (u : Int) - 2 ^ 32

/-- `get_reference_bitmap_from_rip` from `gc.rs`: read the little-endian
signed 32-bit offset at `rip + 3` and return `rip + offset + 7`. -/
def get_reference_bitmap_from_rip (byte : Int → Nat) (rip : Int) : Int :=
  rip + (read_i32_le byte (rip + 3) + 7)

/-- The values of the slots one iteration of the frame loop in `gc.rs`
passes to `mark_reachable_from`, in source order: for `index` from
`min_index` to `max_index` (nothing when `max_index < min_index`), slot
`frame_base[index]` is traced when
`ref_map[8 + (index - min_index) / 8] & (1 << ((index - min_index) % 8))`
is non-zero. -/
def frame_roots (byte stack : Int → Nat) (ra frame : Int) : List Nat :=
  let ref_map := get_reference_bitmap_from_rip byte ra
  let min_index := read_i32_le byte ref_map
  let max_index := read_i32_le byte (ref_map + 4)
  (List.range (max_index - min_index + 1).toNat).filterMap fun k =>
    if byte (ref_map + 8 + (k / 8 : Nat)) % 256 &&& (1 <<< (k % 8)) ≠ 0 then
      some (stack (frame + min_index + (k : Int)))
    else none

/-- The stack-walk mark phase of `perform_mark_and_sweep_gc` from `gc.rs`:
mark from every described slot of the current frame; stop after the frame
whose base equals `bottom`, otherwise reload `ra := *(frame_base + 1)` and
`frame_base := *frame_base` and continue.  `fuel` bounds the walk so the
model is total; `none` models a walk that never reaches `bottom`. -/
def walk_and_mark (byte stack : Int → Nat) (π : Nat → Prototype) (dom : Finset Nat)
    (bottom : Int) : Nat → Heap → Int → Int → Option Heap
  | 0, _, _, _ => none
  | fuel + 1, H, ra, frame =>
    let H₁ := markList π dom H (frame_roots byte stack ra frame)
    if frame = bottom then some H₁
    else walk_and_mark byte stack π dom bottom fuel H₁
      ((stack (frame + 1) : Nat) : Int) ((stack frame : Nat) : Int)

/-- The per-frame root values in the claim's words: the reference map
begins at `ra + δ + 7` where `δ` is the little-endian signed 32-bit offset
at `ra + 3`; it carries `min_index`, `max_index` and a bitmap, and slot
`frame_base[min_index + k]` is traced exactly when bit `k` of the bitmap
(bit `k % 8` of bitmap byte `k / 8`) is set; a range with
`max_index < min_index` traces nothing. -/
def frame_roots_spec (byte stack : Int → Nat) (ra frame : Int) : List Nat :=
  let δ := read_i32_le byte (ra + 3)
  let m := ra + δ + 7
  let min_index := read_i32_le byte m
  let max_index := read_i32_le byte (m + 4)
  (List.range (max_index - min_index + 1).toNat).filterMap fun k =>
    if (byte (m + 8 + (k / 8 : Nat))).testBit (k % 8) then
      some (stack (frame + min_index + (k : Int)))
    else none

/-- The whole stack walk in the claim's words: the roots of the current
frame, stopping after the frame whose base is `InitParam.bottom_frame`,
otherwise continuing with `ra := *(frame_base + 1)` and
`frame_base := *frame_base`. -/
def stack_walk_spec (byte stack : Int → Nat) (bottom : Int) :
    Nat → Int → Int → Option (List Nat)
  | 0, _, _ => none
  | fuel + 1, ra, frame =>
    let rs := frame_roots_spec byte stack ra frame
    if frame = bottom then some rs
    else (stack_walk_spec byte stack bottom fuel
        ((stack (frame + 1) : Nat) : Int) ((stack frame : Nat) : Int)).map
      (fun rest => rs ++ rest)

/-- The globals walk of `perform_mark_and_sweep_gc` from `gc.rs`: for
`index` in `0 .. global_size / 8`, the slot `global_section + index` is
traced when `global_map[index / 8] & (1 << (index % 8))` is non-zero. -/
def global_roots (byte stack : Int → Nat) (ip : InitParam) : List Nat :=
  (List.range (ip.global_size / 8)).filterMap fun idx =>
    if byte (ip.global_map + (idx / 8 : Nat)) % 256 &&& (1 <<< (idx % 8)) ≠ 0 then
      some (stack (ip.global_section + (idx : Int)))
    else none

lemma frame_roots_eq_spec (byte stack : Int → Nat) (ra frame : Int) :
    frame_roots byte stack ra frame = frame_roots_spec byte stack ra frame := by
  unfold frame_roots frame_roots_spec get_reference_bitmap_from_rip
  have haddr : ra + (read_i32_le byte (ra + 3) + 7) = ra + read_i32_le byte (ra + 3) + 7 := by
    ring
  rw [haddr]
  apply List.filterMap_congr
  intro k _
  have hk : k % 8 < 8 := Nat.mod_lt _ (by norm_num)
  by_cases hbit : (byte (ra + read_i32_le byte (ra + 3) + 7 + 8 + (k / 8 : Nat))).testBit (k % 8)
  · rw [if_pos hbit, if_pos ((byte_flag_iff _ _ hk).mpr hbit)]
  · rw [if_neg hbit, if_neg (fun hc => hbit ((byte_flag_iff _ _ hk).mp hc))]

/-- The stack-walk mark phase computes exactly the claim's root protocol:
it is the spec-side walk followed by marking the collected roots in
order. -/
lemma walk_and_mark_eq_spec (byte stack : Int → Nat) (π : Nat → Prototype)
    (dom : Finset Nat) (bottom : Int) (fuel : Nat) (H : Heap) (ra frame : Int) :
    walk_and_mark byte stack π dom bottom fuel H ra frame
      = (stack_walk_spec byte stack bottom fuel ra frame).map
          (fun roots => markList π dom H roots) := by
  induction fuel generalizing H ra frame with
  | zero => rfl
  | succ fuel ih =>
    rw [walk_and_mark, stack_walk_spec]
    by_cases hb : frame = bottom
    · rw [if_pos hb, if_pos hb, Option.map_some', frame_roots_eq_spec]
    · rw [if_neg hb, if_neg hb, ih]
      cases hrec : stack_walk_spec byte stack bottom fuel
          ((stack (frame + 1) : Nat) : Int) ((stack frame : Nat) : Int) with
      | none => rfl
      | some rest =>
        simp only [Option.map_some']
        rw [frame_roots_eq_spec, markList_append]

/-- C2: for every frame, the enumerator reads the little-endian signed
32-bit offset `δ` at `ra + 3`, finds the reference map at `ra + δ + 7`,
reads `min_index` and `max_index` from it, traces slot
`frame_base[min_index + k]` exactly when bit `k` of the map's bitmap is set
(nothing when `max_index < min_index`), and then stops if
`frame_base = InitParam.bottom_frame` or continues with
`ra := *(frame_base + 1)`, `frame_base := *frame_base` — i.e. the stack
walk marks precisely the root values collected by the claim's protocol, in
order, and additionally an empty range yields no roots. -/
theorem c2_stack_walk (byte stack : Int → Nat) (π : Nat → Prototype) (dom : Finset Nat)
    (bottom : Int) (fuel : Nat) (H : Heap) (ra frame : Int) :
    walk_and_mark byte stack π dom bottom fuel H ra frame
      = (stack_walk_spec byte stack bottom fuel ra frame).map
          (fun roots => markList π dom H roots) ∧
    (∀ ra' frame' : Int,
      read_i32_le byte (get_reference_bitmap_from_rip byte ra' + 4)
          < read_i32_le byte (get_reference_bitmap_from_rip byte ra') →
      frame_roots byte stack ra' frame' = []) := by
  constructor
  · exact walk_and_mark_eq_spec byte stack π dom bottom fuel H ra frame
  · intro ra' frame' hlt
    have hz : (read_i32_le byte (get_reference_bitmap_from_rip byte ra' + 4)
        - read_i32_le byte (get_reference_bitmap_from_rip byte ra') + 1).toNat = 0 := by
      omega
    simp only [frame_roots, hz, List.range_zero, List.filterMap_nil]

/-! ### Runtime state, the collector entry point, and the allocator -/

/-- The thread-local runtime state of `lib.rs` plus the model's accounting
of which addresses currently hold allocated (not yet freed) objects
(`dom`): `INIT_PARAM`, `GC_HEAD` (0 = None), `CURRENT_SPACE`,
`THRESHOLD_SPACE`, and the heap contents. -/
structure RtState where
  initParam : InitParam
  dom : Finset Nat
  H : Heap
  head : Nat
  space : Nat
  threshold : Nat

/-- `perform_mark_and_sweep_gc` from `gc.rs`: mark from the stack walk
(initial return address `*(stack_pointer - 1)`, initial frame base `rbp`),
then from the globals, then sweep the object list from `GC_HEAD`, unlink
and release every unmarked object, clear the marks of the survivors, and
subtract the reclaimed units from `CURRENT_SPACE`.  Returns the new state
and the list of released objects (the `drop` calls, in order); `none`
models a stack walk that never reaches `bottom_frame` or a malformed
object list (neither occurs under the compiled-code contracts). -/
def perform_mark_and_sweep_gc (byte stack : Int → Nat) (π : Nat → Prototype)
    (fuelW : Nat) (s : RtState) (rbp rsp : Int) : Option (RtState × List Nat) :=
  match walk_and_mark byte stack π s.dom s.initParam.bottom_frame fuelW s.H
      ((stack (rsp - 1) : Nat) : Int) rbp with
  | none => none
  | some H₁ =>
    let H₂ := markList π s.dom H₁ (global_roots byte stack s.initParam)
    match sweepLoop π s.dom.card { head := s.head, H := H₂, freed := [], reclaimed := 0 }
        Cursor.headSlot with
    | none => none
    | some sw =>
      some ({ s with dom := s.dom \ sw.freed.toFinset, H := sw.H, head := sw.head,
                     space := s.space - sw.reclaimed }, sw.freed)

/-- The allocation steps of `alloc_obj` from `lib.rs` after the optional
collection: compute the size, obtain zero-filled storage at the fresh
address (`vec![AllocUnit(0); size]` — chosen by the host allocator, hence a
parameter), add the size to `CURRENT_SPACE`, link the object in front of
`GC_HEAD`, and write the header (`prototype`, `gc_is_marked = 0`,
`gc_next = old head`, and for an array prototype the `len` header word). -/
def alloc_core (π : Nat → Prototype) (s : RtState) (protoA lenArg fresh : Nat) :
    RtState × Nat :=
  let size := calculate_size (π protoA) lenArg
  let newObj : ObjMem :=
    if 0 ≤ (π protoA).size then
      { protoAddr := protoA, mark := 0, nextAddr := s.head, slotVal := fun _ => 0 }
    else
      { protoAddr := protoA, mark := 0, nextAddr := s.head,
        slotVal := fun i => if i = 0 then lenArg else 0 }
  ({ s with dom := insert fresh s.dom,
            H := fun x => if x = fresh then newObj else s.H x,
            head := fresh,
            space := s.space + size }, fresh)

/-- `alloc_obj` from `lib.rs` (`$alloc_obj`): if
`CURRENT_SPACE ≥ THRESHOLD_SPACE`, first run a full collection and set
`THRESHOLD_SPACE := max(1024, CURRENT_SPACE * 2)`; then allocate.  `fresh`
is the non-null address returned by the host allocator for the new
zero-filled block. -/
def alloc_obj (byte stack : Int → Nat) (π : Nat → Prototype) (fuelW : Nat)
    (s : RtState) (protoA lenArg : Nat) (rbp rsp : Int) (fresh : Nat) :
    Option (RtState × Nat) :=
  if s.threshold ≤ s.space then
    match perform_mark_and_sweep_gc byte stack π fuelW s rbp rsp with
    | none => none
    | some (s₁, _) =>
      some (alloc_core π { s₁ with threshold := max 1024 (s₁.space * 2) }
        protoA lenArg fresh)
  else some (alloc_core π s protoA lenArg fresh)

/-- Witness for C2 at a concrete memory: the walk equation at a one-frame
stack, and an empty range (`max_index = 0 < 1 = min_index`, encoded in the
bytes at the reference map of `ra' = 10`) tracing nothing. -/
theorem c2_stack_walk_witness :
    walk_and_mark (fun a => if a = 17 then 1 else 0) (fun _ => 0)
        (fun _ => ⟨0, Ty.Other, fun _ => 0⟩) ∅ 0 1 (fun _ => ⟨0, 0, 0, fun _ => 0⟩) 0 0
      = (stack_walk_spec (fun a => if a = 17 then 1 else 0) (fun _ => 0) 0 1 0 0).map
          (fun roots =>
            markList (fun _ => ⟨0, Ty.Other, fun _ => 0⟩) ∅
              (fun _ => ⟨0, 0, 0, fun _ => 0⟩) roots) ∧
    frame_roots (fun a => if a = 17 then 1 else 0) (fun _ => 0) 10 0 = [] :=
  ⟨(c2_stack_walk (fun a => if a = 17 then 1 else 0) (fun _ => 0)
      (fun _ => ⟨0, Ty.Other, fun _ => 0⟩) ∅ 0 1 (fun _ => ⟨0, 0, 0, fun _ => 0⟩) 0 0).1,
   (c2_stack_walk (fun a => if a = 17 then 1 else 0) (fun _ => 0)
      (fun _ => ⟨0, Ty.Other, fun _ => 0⟩) ∅ 0 1 (fun _ => ⟨0, 0, 0, fun _ => 0⟩) 0 0).2
     10 0 (by decide)⟩

/-! ### C4, C5, C9: the allocator -/

lemma alloc_core_spec (π : Nat → Prototype) (s : RtState) (protoA lenArg fresh : Nat) :
    (alloc_core π s protoA lenArg fresh).2 = fresh ∧
    ((alloc_core π s protoA lenArg fresh).1.H fresh).protoAddr = protoA ∧
    ((alloc_core π s protoA lenArg fresh).1.H fresh).mark = 0 ∧
    ((alloc_core π s protoA lenArg fresh).1.H fresh).nextAddr = s.head ∧
    ((π protoA).size < 0 → ((alloc_core π s protoA lenArg fresh).1.H fresh).slotVal 0 = lenArg) ∧
    (∀ i, i ≠ 0 → ((alloc_core π s protoA lenArg fresh).1.H fresh).slotVal i = 0) ∧
    (0 ≤ (π protoA).size → ∀ i, ((alloc_core π s protoA lenArg fresh).1.H fresh).slotVal i = 0) ∧
    (∀ b, b ≠ fresh → (alloc_core π s protoA lenArg fresh).1.H b = s.H b) ∧
    (alloc_core π s protoA lenArg fresh).1.head = fresh ∧
    (alloc_core π s protoA lenArg fresh).1.dom = insert fresh s.dom ∧
    (alloc_core π s protoA lenArg fresh).1.space
      = s.space + calculate_size (π protoA) lenArg ∧
    (alloc_core π s protoA lenArg fresh).1.threshold = s.threshold ∧
    (alloc_core π s protoA lenArg fresh).1.initParam = s.initParam := by
  by_cases hsz : 0 ≤ (π protoA).size
  · refine ⟨rfl, ?_, ?_, ?_, fun h => absurd h (not_lt.mpr hsz), fun i _ => ?_,
      fun _ i => ?_, fun b hb => ?_, rfl, rfl, rfl, rfl, rfl⟩ <;>
      simp [alloc_core, hsz, *]
  · refine ⟨rfl, ?_, ?_, ?_, fun _ => ?_, fun i hi => ?_,
      fun h => absurd h hsz, fun b hb => ?_, rfl, rfl, rfl, rfl, rfl⟩ <;>
      simp [alloc_core, hsz, *]

lemma gc_result_shape (byte stack : Int → Nat) (π : Nat → Prototype) (fuelW : Nat)
    (s : RtState) (rbp rsp : Int) (s₁ : RtState) (freed : List Nat)
    (h : perform_mark_and_sweep_gc byte stack π fuelW s rbp rsp = some (s₁, freed)) :
    s₁.dom = s.dom \ freed.toFinset ∧ s₁.threshold = s.threshold ∧
    s₁.initParam = s.initParam := by
  unfold perform_mark_and_sweep_gc at h
  cases hw : walk_and_mark byte stack π s.dom s.initParam.bottom_frame fuelW s.H
      ((stack (rsp - 1) : Nat) : Int) rbp with
  | none => rw [hw] at h; cases h
  | some H₁ =>
    rw [hw] at h
    dsimp only at h
    cases hs : sweepLoop π s.dom.card
        { head := s.head, H := markList π s.dom H₁ (global_roots byte stack s.initParam),
          freed := [], reclaimed := 0 } Cursor.headSlot with
    | none => rw [hs] at h; cases h
    | some sw =>
      rw [hs] at h
      dsimp only at h
      cases h
      exact ⟨rfl, rfl, rfl⟩

/-- C4: every completed call of `alloc_obj` returns the (non-null) fresh
pointer, whose object has `gc_is_marked = 0`, whose `prototype` is the
argument, whose `len` header equals the `len` argument when the prototype
is an array prototype, and all of whose payload words beyond the header
fields written by the allocator are zero. -/
theorem c4_alloc_wellformed (byte stack : Int → Nat) (π : Nat → Prototype) (fuelW : Nat)
    (s : RtState) (protoA lenArg : Nat) (rbp rsp : Int) (fresh : Nat)
    (s' : RtState) (a : Nat)
    (hfresh : fresh ≠ 0)
    (h : alloc_obj byte stack π fuelW s protoA lenArg rbp rsp fresh = some (s', a)) :
    a ≠ 0 ∧
    (s'.H a).protoAddr = protoA ∧
    (s'.H a).mark = 0 ∧
    ((π protoA).size < 0 → (s'.H a).slotVal 0 = lenArg) ∧
    (∀ i, i ≠ 0 → (s'.H a).slotVal i = 0) ∧
    (0 ≤ (π protoA).size → ∀ i, (s'.H a).slotVal i = 0) := by
  unfold alloc_obj at h
  by_cases hth : s.threshold ≤ s.space
  · rw [if_pos hth] at h
    cases hgc : perform_mark_and_sweep_gc byte stack π fuelW s rbp rsp with
    | none => rw [hgc] at h; cases h
    | some p =>
      rw [hgc] at h
      obtain ⟨s₁, freed⟩ := p
      dsimp only at h
      have hinj := Option.some.inj h
      have hs' : s' = (alloc_core π { s₁ with threshold := max 1024 (s₁.space * 2) }
          protoA lenArg fresh).1 := by
        rw [hinj]
      have ha : a = (alloc_core π { s₁ with threshold := max 1024 (s₁.space * 2) }
          protoA lenArg fresh).2 := by
        rw [hinj]
      rw [hs', ha]
      obtain ⟨h1, h2, h3, _, h5, h6, h7, _⟩ :=
        alloc_core_spec π { s₁ with threshold := max 1024 (s₁.space * 2) } protoA lenArg fresh
      rw [h1]
      exact ⟨hfresh, h2, h3, h5, h6, h7⟩
  · rw [if_neg hth] at h
    have hinj := Option.some.inj h
    have hs' : s' = (alloc_core π s protoA lenArg fresh).1 := by
      rw [hinj]
    have ha : a = (alloc_core π s protoA lenArg fresh).2 := by
      rw [hinj]
    rw [hs', ha]
    obtain ⟨h1, h2, h3, _, h5, h6, h7, _⟩ := alloc_core_spec π s protoA lenArg fresh
    rw [h1]
    exact ⟨hfresh, h2, h3, h5, h6, h7⟩

/-- C9: a call of `alloc_obj` entered with `CURRENT_SPACE < THRESHOLD_SPACE`
runs no collection: it returns `alloc_core` applied to the entry state, and
leaves `THRESHOLD_SPACE`, `INIT_PARAM` and every previously allocated
object untouched, changing only `CURRENT_SPACE` (increased by the computed
size), `GC_HEAD` (now the fresh object, whose `gc_next` is the old head)
and the freshly allocated storage. -/
theorem c9_alloc_frame (byte stack : Int → Nat) (π : Nat → Prototype) (fuelW : Nat)
    (s : RtState) (protoA lenArg : Nat) (rbp rsp : Int) (fresh : Nat)
    (hlt : s.space < s.threshold) :
    alloc_obj byte stack π fuelW s protoA lenArg rbp rsp fresh
      = some (alloc_core π s protoA lenArg fresh) ∧
    (alloc_core π s protoA lenArg fresh).1.threshold = s.threshold ∧
    (alloc_core π s protoA lenArg fresh).1.initParam = s.initParam ∧
    (∀ b, b ≠ fresh → (alloc_core π s protoA lenArg fresh).1.H b = s.H b) ∧
    (alloc_core π s protoA lenArg fresh).1.space
      = s.space + calculate_size (π protoA) lenArg ∧
    (alloc_core π s protoA lenArg fresh).1.head = fresh ∧
    (alloc_core π s protoA lenArg fresh).1.dom = insert fresh s.dom ∧
    ((alloc_core π s protoA lenArg fresh).1.H fresh).nextAddr = s.head := by
  obtain ⟨_, _, _, h4, _, _, _, h8, h9, h10, h11, h12, h13⟩ :=
    alloc_core_spec π s protoA lenArg fresh
  refine ⟨?_, h12, h13, h8, h11, h9, h10, h4⟩
  unfold alloc_obj
  rw [if_neg (not_le.mpr hlt)]

/-! ### The full collection: shared machinery for C1 and C6 -/

/-- Running the collector on a well-formed object list: the stack walk
succeeds, the heap is marked from the stack roots followed by the global
roots, and the sweep completes, keeping exactly the marked objects (marks
cleared), releasing exactly the unmarked ones, and reclaiming their
sizes. -/
lemma gc_run (byte stack : Int → Nat) (π : Nat → Prototype) (fuelW : Nat)
    (s : RtState) (rbp rsp : Int) (l sroots : List Nat)
    (hchain : chainList s.H l.length s.head = some l)
    (hnd : l.Nodup)
    (hdom : l.toFinset = s.dom)
    (hwalk : stack_walk_spec byte stack s.initParam.bottom_frame fuelW
        ((stack (rsp - 1) : Nat) : Int) rbp = some sroots) :
    ∃ sw : SweepSt,
      perform_mark_and_sweep_gc byte stack π fuelW s rbp rsp
        = some ({ s with dom := s.dom \ sw.freed.toFinset, H := sw.H, head := sw.head,
                         space := s.space - sw.reclaimed }, sw.freed) ∧
      chainList sw.H
          (l.filter (fun a =>
            ((markList π s.dom s.H
              (sroots ++ global_roots byte stack s.initParam)) a).mark = 1)).length
          sw.head
        = some (l.filter (fun a =>
            ((markList π s.dom s.H
              (sroots ++ global_roots byte stack s.initParam)) a).mark = 1)) ∧
      sw.freed = l.filter (fun a =>
        ¬ ((markList π s.dom s.H
          (sroots ++ global_roots byte stack s.initParam)) a).mark = 1) ∧
      sw.reclaimed = ((l.filter (fun a =>
        ¬ ((markList π s.dom s.H
          (sroots ++ global_roots byte stack s.initParam)) a).mark = 1)).map
            (size_units π s.H)).sum ∧
      (∀ a, (sw.H a).protoAddr = (s.H a).protoAddr) ∧
      (∀ a, (sw.H a).slotVal = (s.H a).slotVal) ∧
      (∀ a, (sw.H a).mark
        = if a ∈ l ∧ ((markList π s.dom s.H
              (sroots ++ global_roots byte stack s.initParam)) a).mark = 1
          then 0
          else ((markList π s.dom s.H
            (sroots ++ global_roots byte stack s.initParam)) a).mark) := by
  set roots := sroots ++ global_roots byte stack s.initParam with hroots_def
  set H₂ := markList π s.dom s.H roots with hH₂
  have hwalkeq : walk_and_mark byte stack π s.dom s.initParam.bottom_frame fuelW s.H
      ((stack (rsp - 1) : Nat) : Int) rbp = some (markList π s.dom s.H sroots) := by
    rw [walk_and_mark_eq_spec, hwalk, Option.map_some']
  have hmerge : markList π s.dom (markList π s.dom s.H sroots)
      (global_roots byte stack s.initParam) = H₂ := by
    rw [hH₂, hroots_def, markList_append]
  have hnext2 : ∀ a, (H₂ a).nextAddr = (s.H a).nextAddr :=
    fun a => (markList_frame π s.dom s.H roots a).2.2
  have hchain2 : chainList H₂ l.length s.head = some l :=
    chainList_congr s.H H₂ l s.head (fun a _ => (hnext2 a).symm) hchain
  have hcard : s.dom.card = l.length := by
    rw [← hdom, List.toFinset_card_of_nodup hnd]
  obtain ⟨sw, hrun, hchainsw, hfreedsw, hreclsw, hprotosw, hslotsw, hmarksw, _, _⟩ :=
    sweepLoop_spec π l { head := s.head, H := H₂, freed := [], reclaimed := 0 }
      Cursor.headSlot hchain2 hnd (fun b hb => by cases hb)
  have hgc : perform_mark_and_sweep_gc byte stack π fuelW s rbp rsp
      = some ({ s with dom := s.dom \ sw.freed.toFinset, H := sw.H, head := sw.head,
                       space := s.space - sw.reclaimed }, sw.freed) := by
    unfold perform_mark_and_sweep_gc
    rw [hwalkeq]
    dsimp only
    rw [hmerge, hcard, hrun]
  have hsize2 : ∀ a, size_units π H₂ a = size_units π s.H a := fun a =>
    size_units_congr π H₂ s.H a (markList_frame π s.dom s.H roots a).1
      (markList_frame π s.dom s.H roots a).2.1
  refine ⟨sw, hgc, hchainsw, ?_, ?_, ?_, ?_, hmarksw⟩
  · rw [hfreedsw]
    rfl
  · rw [hreclsw]
    simp only [Nat.zero_add]
    apply congrArg
    apply List.map_congr_left
    intro a _
    exact hsize2 a
  · intro a
    rw [hprotosw a]
    exact (markList_frame π s.dom s.H roots a).1
  · intro a
    rw [hslotsw a]
    exact (markList_frame π s.dom s.H roots a).2.1

/-- C5: a call of `alloc_obj` entered with `CURRENT_SPACE ≥ THRESHOLD_SPACE`
runs a full collection before the new object is allocated — the returned
state is `alloc_core` applied to the collected state (whose object set is a
subset of the entry one) — and immediately after the collection
`THRESHOLD_SPACE` is `max 1024 (2 * CURRENT_SPACE)` with `CURRENT_SPACE`
the post-collection value; the subsequent allocation leaves the threshold
at that value. -/
theorem c5_alloc_collects (byte stack : Int → Nat) (π : Nat → Prototype) (fuelW : Nat)
    (s : RtState) (protoA lenArg : Nat) (rbp rsp : Int) (fresh : Nat)
    (l sroots : List Nat)
    (hge : s.threshold ≤ s.space)
    (hchain : chainList s.H l.length s.head = some l)
    (hnd : l.Nodup)
    (hdom : l.toFinset = s.dom)
    (hwalk : stack_walk_spec byte stack s.initParam.bottom_frame fuelW
        ((stack (rsp - 1) : Nat) : Int) rbp = some sroots) :
    ∃ s₁ freed,
      perform_mark_and_sweep_gc byte stack π fuelW s rbp rsp = some (s₁, freed) ∧
      alloc_obj byte stack π fuelW s protoA lenArg rbp rsp fresh
        = some (alloc_core π { s₁ with threshold := max 1024 (s₁.space * 2) }
            protoA lenArg fresh) ∧
      (alloc_core π { s₁ with threshold := max 1024 (s₁.space * 2) }
          protoA lenArg fresh).1.threshold = max 1024 (2 * s₁.space) ∧
      s₁.dom ⊆ s.dom := by
  obtain ⟨sw, hgc, _, _, _, _, _, _⟩ :=
    gc_run byte stack π fuelW s rbp rsp l sroots hchain hnd hdom hwalk
  refine ⟨_, sw.freed, hgc, ?_, ?_, ?_⟩
  · unfold alloc_obj
    rw [if_pos hge, hgc]
  · rw [(alloc_core_spec π _ protoA lenArg fresh).2.2.2.2.2.2.2.2.2.2.2.1]
    dsimp only
    rw [Nat.mul_comm]
  · dsimp only
    exact Finset.sdiff_subset

/-- Reachability from valid roots stays inside the allocated objects. -/
lemma reach_mem_dom (π : Nat → Prototype) (dom : Finset Nat) (H : Heap)
    (hclosed : ∀ a ∈ dom, ∀ w ∈ children π dom H a, w = 0 ∨ w ∈ dom)
    (r o : Nat) (hr : r ∈ dom) (h : Reach π dom H r o) : o ∈ dom := by
  induction h with
  | refl => exact hr
  | step _ hc hne ih =>
    rcases hclosed _ ih _ hc with h0 | h1
    · exact absurd h0 hne
    · exact h1

/-- C1: under the data-model invariants (well-formed object list, all marks
clear, root slots and reference slots null or allocated) and a terminating
stack walk, the collection returns; every object reachable from the root
set (stack roots followed by global roots, through the tracer's reference
slots) stays on the object list with `gc_is_marked` reset to 0, and every
object on the list not reachable from any root is off the final list and
appears exactly once among the released objects. -/
theorem c1_gc_precision (byte stack : Int → Nat) (π : Nat → Prototype) (fuelW : Nat)
    (s : RtState) (rbp rsp : Int) (l sroots : List Nat)
    (hchain : chainList s.H l.length s.head = some l)
    (hnd : l.Nodup)
    (hdom : l.toFinset = s.dom)
    (hm : ∀ a ∈ s.dom, (s.H a).mark = 0)
    (hwalk : stack_walk_spec byte stack s.initParam.bottom_frame fuelW
        ((stack (rsp - 1) : Nat) : Int) rbp = some sroots)
    (hroots : ∀ r ∈ sroots ++ global_roots byte stack s.initParam, r = 0 ∨ r ∈ s.dom)
    (hclosed : ∀ a ∈ s.dom, ∀ w ∈ children π s.dom s.H a, w = 0 ∨ w ∈ s.dom) :
    ∃ s' freed l',
      perform_mark_and_sweep_gc byte stack π fuelW s rbp rsp = some (s', freed) ∧
      chainList s'.H l'.length s'.head = some l' ∧
      (∀ o ∈ l', (s'.H o).mark = 0) ∧
      (∀ o, (∃ r ∈ sroots ++ global_roots byte stack s.initParam,
          r ≠ 0 ∧ Reach π s.dom s.H r o) → o ∈ l' ∧ (s'.H o).mark = 0) ∧
      (∀ o ∈ l, ¬ (∃ r ∈ sroots ++ global_roots byte stack s.initParam,
          r ≠ 0 ∧ Reach π s.dom s.H r o) → o ∉ l' ∧ freed.count o = 1) := by
  obtain ⟨sw, hgc, hchainsw, hfreedsw, _, _, _, hmarksw⟩ :=
    gc_run byte stack π fuelW s rbp rsp l sroots hchain hnd hdom hwalk
  set roots := sroots ++ global_roots byte stack s.initParam with hroots_def
  set H₂ := markList π s.dom s.H roots with hH₂
  have hm1 : ∀ a, (s.H a).mark = 1 → a ∉ s.dom := by
    intro a ha hdom'
    rw [hm a hdom'] at ha
    exact absurd ha (by decide)
  have hmeml : ∀ o, o ∈ s.dom → o ∈ l := by
    intro o ho
    rw [← hdom] at ho
    exact List.mem_toFinset.mp ho
  have hcomplete : ∀ o, (∃ r ∈ roots, r ≠ 0 ∧ Reach π s.dom s.H r o) → (H₂ o).mark = 1 := by
    rintro o ⟨r, hrmem, hrne, hro⟩
    exact markList_complete π s.dom s.H roots hm1 r o hrmem hrne hro
  have hsound : ∀ o ∈ s.dom, (H₂ o).mark = 1 →
      ∃ r ∈ roots, r ≠ 0 ∧ Reach π s.dom s.H r o := by
    intro o hodom h2
    rcases markList_sound π s.dom s.H roots o h2 with h1 | h
    · rw [hm o hodom] at h1
      exact absurd h1 (by decide)
    · exact h
  refine ⟨_, sw.freed, l.filter (fun a => (H₂ a).mark = 1), hgc, hchainsw, ?_, ?_, ?_⟩
  · intro o ho
    rw [List.mem_filter, decide_eq_true_eq] at ho
    rw [hmarksw o, if_pos ho]
  · rintro o hreach
    obtain ⟨r, hrmem, hrne, hro⟩ := hreach
    have hrdom : r ∈ s.dom := by
      rcases hroots r hrmem with h0 | h1
      · exact absurd h0 hrne
      · exact h1
    have hodom : o ∈ s.dom := reach_mem_dom π s.dom s.H hclosed r o hrdom hro
    have hmarked : (H₂ o).mark = 1 := hcomplete o ⟨r, hrmem, hrne, hro⟩
    have hol : o ∈ l := hmeml o hodom
    have hofilter : o ∈ l.filter (fun a => (H₂ a).mark = 1) := by
      rw [List.mem_filter, decide_eq_true_eq]
      exact ⟨hol, hmarked⟩
    refine ⟨hofilter, ?_⟩
    rw [hmarksw o, if_pos ⟨hol, hmarked⟩]
  · intro o hol hnreach
    have hodom : o ∈ s.dom := by
      rw [← hdom]
      exact List.mem_toFinset.mpr hol
    have hunmarked : ¬ (H₂ o).mark = 1 := fun hmk => hnreach (hsound o hodom hmk)
    constructor
    · intro hofilter
      rw [List.mem_filter, decide_eq_true_eq] at hofilter
      exact hunmarked hofilter.2
    · rw [hfreedsw]
      apply List.count_eq_one_of_mem (List.Nodup.filter _ hnd)
      rw [List.mem_filter, decide_eq_true_eq]
      exact ⟨hol, hunmarked⟩

/-! ### C6: object-list integrity -/

lemma sum_map_filter_split (f : Nat → Nat) (p : Nat → Prop) [DecidablePred p]
    (l : List Nat) :
    ((l.filter (fun a => p a)).map f).sum + ((l.filter (fun a => ¬ p a)).map f).sum
      = (l.map f).sum := by
  induction l with
  | nil => rfl
  | cons x xs ih =>
    by_cases hp : p x
    · rw [List.filter_cons_of_pos (by simpa using hp),
        List.filter_cons_of_neg (by simpa using hp),
        List.map_cons, List.sum_cons, List.map_cons, List.sum_cons]
      omega
    · rw [List.filter_cons_of_neg (by simpa using hp),
        List.filter_cons_of_pos (by simpa using hp),
        List.map_cons, List.sum_cons, List.map_cons, List.sum_cons]
      omega

lemma calculate_size_len_irrel (p : Prototype) (x y : Nat) (h : 0 ≤ p.size) :
    calculate_size p x = calculate_size p y := by
  simp [calculate_size, h]

/-- The object-list invariant of the claim: walking `gc_next` from
`GC_HEAD` visits exactly the allocated-and-not-freed objects, each once,
terminating at null, and `CURRENT_SPACE` is the sum of the objects' sizes
in allocation units as computed by `calculate_size`. -/
def ChainInv (π : Nat → Prototype) (s : RtState) (l : List Nat) : Prop :=
  chainList s.H l.length s.head = some l ∧ l.Nodup ∧ l.toFinset = s.dom ∧
  s.space = (l.map (size_units π s.H)).sum

/-- C6: the object-list invariant is preserved by allocation — the
allocator prepends the fresh object, whose `gc_next` is the old head, and
adds its size to `CURRENT_SPACE` — and by a collection, which unlinks the
released objects and subtracts exactly the reclaimed total from
`CURRENT_SPACE`, leaving a sublist of the original object list. -/
theorem c6_list_integrity :
    (∀ (π : Nat → Prototype) (s : RtState) (l : List Nat) (protoA lenArg fresh : Nat),
      ChainInv π s l → fresh ∉ s.dom → fresh ≠ 0 →
      ChainInv π (alloc_core π s protoA lenArg fresh).1 (fresh :: l) ∧
      ((alloc_core π s protoA lenArg fresh).1.H fresh).nextAddr = s.head ∧
      (alloc_core π s protoA lenArg fresh).1.head = fresh ∧
      (alloc_core π s protoA lenArg fresh).1.space
        = s.space + calculate_size (π protoA) lenArg) ∧
    (∀ (byte stack : Int → Nat) (π : Nat → Prototype) (fuelW : Nat) (s : RtState)
        (rbp rsp : Int) (l sroots : List Nat),
      ChainInv π s l →
      stack_walk_spec byte stack s.initParam.bottom_frame fuelW
          ((stack (rsp - 1) : Nat) : Int) rbp = some sroots →
      ∃ s' freed l',
        perform_mark_and_sweep_gc byte stack π fuelW s rbp rsp = some (s', freed) ∧
        l'.Sublist l ∧ ChainInv π s' l' ∧
        s'.space + (freed.map (size_units π s.H)).sum = s.space) := by
  constructor
  · rintro π s l protoA lenArg fresh ⟨hchain, hnd, hdom, hspace⟩ hfresh hfne
    obtain ⟨_, _, _, h4, h5, _, _, h8, h9, h10, h11, _, _⟩ :=
      alloc_core_spec π s protoA lenArg fresh
    have hfl : fresh ∉ l := by
      intro hmem
      exact hfresh (hdom ▸ List.mem_toFinset.mpr hmem)
    have hHagree : ∀ a ∈ l, ((alloc_core π s protoA lenArg fresh).1.H a).nextAddr
        = (s.H a).nextAddr := by
      intro a ha
      rw [h8 a (fun h => hfl (h ▸ ha))]
    refine ⟨⟨?_, ?_, ?_, ?_⟩, h4, h9, h11⟩
    · rw [List.length_cons, h9, chainList_succ, if_neg hfne, h4]
      have : chainList (alloc_core π s protoA lenArg fresh).1.H l.length s.head
          = some l :=
        chainList_congr s.H _ l s.head (fun a ha => (hHagree a ha).symm) hchain
      rw [this]
      rfl
    · exact List.nodup_cons.mpr ⟨hfl, hnd⟩
    · rw [List.toFinset_cons, hdom, h10]
    · rw [h11, hspace, List.map_cons, List.sum_cons]
      have hnew : size_units π (alloc_core π s protoA lenArg fresh).1.H fresh
          = calculate_size (π protoA) lenArg := by
        unfold size_units
        obtain ⟨_, h2', _, _, h5', h6', _, _⟩ := alloc_core_spec π s protoA lenArg fresh
        rw [h2']
        by_cases hsz : 0 ≤ (π protoA).size
        · exact calculate_size_len_irrel (π protoA) _ lenArg hsz
        · rw [h5' (not_le.mp hsz)]
      have htail : ∀ a ∈ l, size_units π (alloc_core π s protoA lenArg fresh).1.H a
          = size_units π s.H a := by
        intro a ha
        unfold size_units
        rw [h8 a (fun h => hfl (h ▸ ha))]
      rw [hnew, List.map_congr_left htail]
      omega
  · rintro byte stack π fuelW s rbp rsp l sroots ⟨hchain, hnd, hdom, hspace⟩ hwalk
    obtain ⟨sw, hgc, hchainsw, hfreedsw, hreclsw, hprotosw, hslotsw, hmarksw⟩ :=
      gc_run byte stack π fuelW s rbp rsp l sroots hchain hnd hdom hwalk
    set H₂ := markList π s.dom s.H (sroots ++ global_roots byte stack s.initParam)
      with hH₂
    set lKept := l.filter (fun a => (H₂ a).mark = 1) with hlKept
    have hsplit := sum_map_filter_split (size_units π s.H)
      (fun a => (H₂ a).mark = 1) l
    rw [← hlKept] at hsplit
    have hrecl_le : sw.reclaimed ≤ s.space := by
      rw [hreclsw, hspace]
      omega
    refine ⟨_, sw.freed, lKept, hgc, ?_, ⟨hchainsw, ?_, ?_, ?_⟩, ?_⟩
    · exact List.filter_sublist l
    · exact List.Nodup.filter _ hnd
    · rw [hfreedsw]
      have hmem : ∀ b, b ∈ lKept ↔ (b ∈ l ∧ (H₂ b).mark = 1) := by
        intro b
        rw [hlKept]
        simp [List.mem_filter]
      have hmemf : ∀ b, b ∈ l.filter (fun a => ¬ (H₂ a).mark = 1)
          ↔ (b ∈ l ∧ ¬ (H₂ b).mark = 1) := by
        intro b
        simp [List.mem_filter]
      ext a
      rw [List.mem_toFinset, hmem a, Finset.mem_sdiff, ← hdom, List.mem_toFinset,
        List.mem_toFinset, hmemf a]
      tauto
    · have hsizes : ∀ a ∈ lKept, size_units π sw.H a = size_units π s.H a := by
        intro a _
        exact size_units_congr π sw.H s.H a (hprotosw a) (hslotsw a)
      rw [List.map_congr_left hsizes]
      dsimp only
      rw [hreclsw, hspace]
      omega
    · dsimp only
      rw [hfreedsw, hreclsw, hspace]
      omega

/-! ### A concrete runtime scenario for the witnesses -/

/-- Prototype table: address 100 holds an ordinary prototype with one
reference attribute (size 8, bitmap byte 1); every other address holds an
`ObjList` array prototype. -/
def exProto : Nat → Prototype :=
  fun a => if a = 100 then ⟨8, Ty.Other, fun _ => 1⟩ else ⟨-8, Ty.ObjList, fun _ => 0⟩

/-- Heap: object 1000 (prototype 100, references object 2000 in its slot 0,
list-linked to 2000) and object 2000 (prototype 100, no references). -/
def exHeap : Heap :=
  fun a =>
    if a = 1000 then ⟨100, 0, 2000, fun i => if i = 0 then 2000 else 0⟩
    else if a = 2000 then ⟨100, 0, 0, fun _ => 0⟩
    else ⟨0, 0, 0, fun _ => 0⟩

/-- Code bytes: for return address 400, the offset byte at 403 is 1, so the
reference map is at `400 + 1 + 7 = 408`: `min_index = 2` (at 408),
`max_index = 2` (at 412), bitmap byte 1 (at 416).  Byte 700 is the globals
bitmap with bit 0 set. -/
def exByte : Int → Nat :=
  fun a =>
    if a = 403 then 1 else if a = 408 then 2 else if a = 412 then 2
    else if a = 416 then 1 else if a = 700 then 1 else 0

/-- Stack words: `*(rsp - 1) = *309` holds the return address 400, frame
slot `300 + 2 = 302` holds the root 2000, global word 500 holds the root
1000. -/
def exStack : Int → Nat :=
  fun a =>
    if a = 309 then 400 else if a = 302 then 2000 else if a = 500 then 1000 else 0

/-- `InitParam`: bottom frame 300, globals at word 500 of byte size 8,
globals bitmap at byte 700. -/
def exInit : InitParam := ⟨300, 500, 8, 700, 0⟩

/-- Runtime state: objects 1000 and 2000 on the list headed at 1000,
`CURRENT_SPACE = 4 + 4 = 8`, `THRESHOLD_SPACE = 1024`. -/
def exState : RtState := ⟨exInit, {1000, 2000}, exHeap, 1000, 8, 1024⟩

/-- Witness for C1: collecting the concrete two-object heap with stack root
2000 and global root 1000. -/
theorem c1_gc_precision_witness :
    ∃ s' freed l',
      perform_mark_and_sweep_gc exByte exStack exProto 1 exState 300 310
        = some (s', freed) ∧
      chainList s'.H l'.length s'.head = some l' ∧
      (∀ o ∈ l', (s'.H o).mark = 0) ∧
      (∀ o, (∃ r ∈ [2000] ++ global_roots exByte exStack exState.initParam,
          r ≠ 0 ∧ Reach exProto exState.dom exState.H r o) →
        o ∈ l' ∧ (s'.H o).mark = 0) ∧
      (∀ o ∈ [1000, 2000],
        ¬ (∃ r ∈ [2000] ++ global_roots exByte exStack exState.initParam,
          r ≠ 0 ∧ Reach exProto exState.dom exState.H r o) →
        o ∉ l' ∧ freed.count o = 1) :=
  c1_gc_precision exByte exStack exProto 1 exState 300 310 [1000, 2000] [2000]
    rfl (by decide) (by decide) (by decide) rfl (by decide) (by decide)

/-- Witness for C4: allocating an ordinary object at fresh address 3000
without triggering a collection. -/
theorem c4_alloc_wellformed_witness :
    (alloc_core exProto exState 100 0 3000).2 ≠ 0 ∧
    ((alloc_core exProto exState 100 0 3000).1.H
        (alloc_core exProto exState 100 0 3000).2).protoAddr = 100 ∧
    ((alloc_core exProto exState 100 0 3000).1.H
        (alloc_core exProto exState 100 0 3000).2).mark = 0 ∧
    ((exProto 100).size < 0 →
      ((alloc_core exProto exState 100 0 3000).1.H
          (alloc_core exProto exState 100 0 3000).2).slotVal 0 = 0) ∧
    (∀ i, i ≠ 0 →
      ((alloc_core exProto exState 100 0 3000).1.H
          (alloc_core exProto exState 100 0 3000).2).slotVal i = 0) ∧
    (0 ≤ (exProto 100).size →
      ∀ i, ((alloc_core exProto exState 100 0 3000).1.H
          (alloc_core exProto exState 100 0 3000).2).slotVal i = 0) :=
  c4_alloc_wellformed exByte exStack exProto 1 exState 100 0 300 310 3000
    (alloc_core exProto exState 100 0 3000).1
    (alloc_core exProto exState 100 0 3000).2 (by decide) rfl

/-- Witness for C5: a state at its threshold (`space = threshold = 8`)
collects before allocating and retunes the threshold. -/
theorem c5_alloc_collects_witness :
    ∃ s₁ freed,
      perform_mark_and_sweep_gc exByte exStack exProto 1
          ⟨exInit, {1000, 2000}, exHeap, 1000, 8, 8⟩ 300 310 = some (s₁, freed) ∧
      alloc_obj exByte exStack exProto 1 ⟨exInit, {1000, 2000}, exHeap, 1000, 8, 8⟩
          100 0 300 310 3000
        = some (alloc_core exProto { s₁ with threshold := max 1024 (s₁.space * 2) }
            100 0 3000) ∧
      (alloc_core exProto { s₁ with threshold := max 1024 (s₁.space * 2) }
          100 0 3000).1.threshold = max 1024 (2 * s₁.space) ∧
      s₁.dom ⊆ (⟨exInit, {1000, 2000}, exHeap, 1000, 8, 8⟩ : RtState).dom :=
  c5_alloc_collects exByte exStack exProto 1 ⟨exInit, {1000, 2000}, exHeap, 1000, 8, 8⟩
    100 0 300 310 3000 [1000, 2000] [2000] (by decide) rfl (by decide) (by decide) rfl

/-- Witness for C6: the invariant is preserved when allocating at fresh
address 3000, and across a collection of the concrete state. -/
theorem c6_list_integrity_witness :
    (ChainInv exProto (alloc_core exProto exState 100 0 3000).1 (3000 :: [1000, 2000]) ∧
     ((alloc_core exProto exState 100 0 3000).1.H 3000).nextAddr = exState.head ∧
     (alloc_core exProto exState 100 0 3000).1.head = 3000 ∧
     (alloc_core exProto exState 100 0 3000).1.space
       = exState.space + calculate_size (exProto 100) 0) ∧
    (∃ s' freed l',
      perform_mark_and_sweep_gc exByte exStack exProto 1 exState 300 310
        = some (s', freed) ∧
      l'.Sublist [1000, 2000] ∧ ChainInv exProto s' l' ∧
      s'.space + (freed.map (size_units exProto exState.H)).sum = exState.space) :=
  ⟨c6_list_integrity.1 exProto exState [1000, 2000] 100 0 3000
     ⟨rfl, by decide, by decide, by decide⟩ (by decide) (by decide),
   c6_list_integrity.2 exByte exStack exProto 1 exState 300 310 [1000, 2000] [2000]
     ⟨rfl, by decide, by decide, by decide⟩ rfl⟩

/-- Witness for C9: allocating below the threshold leaves the rest of the
state untouched. -/
theorem c9_alloc_frame_witness :
    alloc_obj exByte exStack exProto 1 exState 100 0 300 310 3000
      = some (alloc_core exProto exState 100 0 3000) ∧
    (alloc_core exProto exState 100 0 3000).1.threshold = exState.threshold ∧
    (alloc_core exProto exState 100 0 3000).1.initParam = exState.initParam ∧
    (∀ b, b ≠ 3000 → (alloc_core exProto exState 100 0 3000).1.H b = exState.H b) ∧
    (alloc_core exProto exState 100 0 3000).1.space
      = exState.space + calculate_size (exProto 100) 0 ∧
    (alloc_core exProto exState 100 0 3000).1.head = 3000 ∧
    (alloc_core exProto exState 100 0 3000).1.dom = insert 3000 exState.dom ∧
    ((alloc_core exProto exState 100 0 3000).1.H 3000).nextAddr = exState.head :=
  c9_alloc_frame exByte exStack exProto 1 exState 100 0 300 310 3000 (by decide)

end TypedPyRt
